import Mathlib

/-!
Leveled logging: message model and logfmt encoder.

A shallow embedding of package `log` (`level.go`, `message.go`, `log.go`).

* A Go `string` is its sequence of bytes.  `for _, c := range value` walks the
  string with the UTF-8 decoder of the language (`decodeRune`): an invalid byte
  yields `RuneError` and advances by one byte.
* A `bufio.Writer` is the bytes it has accepted so far together with its sticky
  error; once the error is set every write returns it and writes nothing.  The
  `io.Writer` under `Logfmt` accepts every write.
* Library code is a parameter where its tables or grammar are not part of the package:
  `json.Marshal`, `json.Unmarshal` and `unicode.ToLower` above ASCII (`Stdlib`), the
  layout of a `time.Time`, the text `fmt` prints for a floating-point value.
* The package variables `MinLevel`, `Print` and `handlers` are passed explicitly
  (`Globals`); the effects of the emit pipeline are collected in a `World`.
-/

namespace GoLog

/-! ## Strings, runes and UTF-8 -/

/-- A Go string: a sequence of bytes. -/
abbrev GoString := List Nat

/-- The replacement character `utf8.RuneError`. -/
def RuneError : Nat := 0xFFFD

/-- The largest code point `utf8.MaxRune`. -/
def MaxRune : Nat := 0x10FFFF

/-- One step of `range` over a string (`utf8.DecodeRuneInString`): the rune (code
point) at the front of `s` and its width in bytes.  Masks and shifts are written with
`%` and `*`. -/
def decodeRune (s : GoString) : Nat × Nat :=
  let n := s.length
  if n < 1 then (RuneError, 0) else
  let s0 := s.getD 0 0
  if s0 < 0x80 then (s0, 1) else
  if s0 < 0xC2 ∨ 0xF4 < s0 then (RuneError, 1) else
  let sz := if s0 < 0xE0 then 2 else if s0 < 0xF0 then 3 else 4
  let lo := if s0 = 0xE0 then 0xA0 else if s0 = 0xF0 then 0x90 else 0x80
  let hi := if s0 = 0xED then 0x9F else if s0 = 0xF4 then 0x8F else 0xBF
  if n < sz then (RuneError, 1) else
  let s1 := s.getD 1 0
  if s1 < lo ∨ hi < s1 then (RuneError, 1) else
  if sz ≤ 2 then ((s0 % 32) * 64 + s1 % 64, 2) else
  let s2 := s.getD 2 0
  if s2 < 0x80 ∨ 0xBF < s2 then (RuneError, 1) else
  if sz ≤ 3 then ((s0 % 16) * 4096 + (s1 % 64) * 64 + s2 % 64, 3) else
  let s3 := s.getD 3 0
  if s3 < 0x80 ∨ 0xBF < s3 then (RuneError, 1) else
  ((s0 % 8) * 262144 + (s1 % 64) * 4096 + (s2 % 64) * 64 + s3 % 64, 4)

/-- The runes of the first `fuel` decoding steps over `s`. -/
def runesFuel : Nat → GoString → List Nat
  | 0, _ => []
  | _ + 1, [] => []
  | fuel + 1, b :: bs =>
    (decodeRune (b :: bs)).1 :: runesFuel fuel ((b :: bs).drop (decodeRune (b :: bs)).2)

/-- The runes that `for _, c := range s` yields, in order.  Every step consumes at
least one byte, so `s.length` steps exhaust the string. -/
def runes (s : GoString) : List Nat := runesFuel s.length s

/-- The bytes `utf8.EncodeRune` writes for `r`; a surrogate or a value above
`MaxRune` is written as `RuneError`. -/
def encodeRune (r : Nat) : GoString :=
  if r ≤ 0x7F then [r]
  else if r ≤ 0x7FF then [0xC0 + r / 64, 0x80 + r % 64]
  else if MaxRune < r ∨ (0xD800 ≤ r ∧ r ≤ 0xDFFF) then [0xEF, 0xBF, 0xBD]
  else if r ≤ 0xFFFF then [0xE0 + r / 4096, 0x80 + r / 64 % 64, 0x80 + r % 64]
  else [0xF0 + r / 262144, 0x80 + r / 4096 % 64, 0x80 + r / 64 % 64, 0x80 + r % 64]

/-- The Go string denoted by a string literal: the UTF-8 bytes of its text. -/
def str (s : String) : GoString := s.toList.flatMap (fun c => encodeRune c.toNat)

/-- A string is valid UTF-8 (`utf8.ValidString`) when no decoding step reports an
encoding error, that is `RuneError` with width one. -/
def validFuel : Nat → GoString → Bool
  | 0, s => s.isEmpty
  | _ + 1, [] => true
  | fuel + 1, b :: bs =>
    !((decodeRune (b :: bs)).1 == RuneError && (decodeRune (b :: bs)).2 == 1)
      && validFuel fuel ((b :: bs).drop (decodeRune (b :: bs)).2)

/-- The predicate `utf8.ValidString`. -/
def ValidString (s : GoString) : Bool := validFuel s.length s

/-! ## Errors and the buffered writer -/

/-- A Go `error` value, by the text its `Error()` method returns. -/
structure GoError where
  text : GoString
deriving DecidableEq, Repr

/-- A `bufio.Writer`: the bytes accepted so far and the sticky error. -/
structure Writer where
  out : GoString
  err : Option GoError
deriving DecidableEq, Repr

/-- The method `(*bufio.Writer).WriteRune`. -/
def Writer.WriteRune (w : Writer) (r : Nat) : Writer × Option GoError :=
  match w.err with
  | some e => (w, some e)
  | none => ({ w with out := w.out ++ encodeRune r }, none)

/-- The method `(*bufio.Writer).WriteString`. -/
def Writer.WriteString (w : Writer) (s : GoString) : Writer × Option GoError :=
  match w.err with
  | some e => (w, some e)
  | none => ({ w with out := w.out ++ s }, none)

/-! ## `writeValueString` (message.go) -/

/-- The three flags of the scanning loop of `writeValueString`. -/
structure Flags where
  needsQuotes : Bool
  needsEscape : Bool
  hasEscape : Bool
deriving DecidableEq, Repr

/-- The body of the scanning loop, for one rune `c`. -/
def scanStep (f : Flags) (c : Nat) : Flags :=
  if c = 0x22 ∨ c = 0x3D then { f with needsQuotes := true, needsEscape := true }
  else if c ≤ 0x20 then { f with needsQuotes := true }
  else if c = 0x5C then { f with hasEscape := true }
  else f

/-- The scanning loop `for _, c := range value` over all runes of the value. -/
def scan (value : GoString) : Flags :=
  (runes value).foldl scanStep ⟨false, false, false⟩

/-- The escaping loop: a backslash before each backslash and double quote, then the
rune itself; the first failed write ends the loop with its error. -/
def writeEscaped (w : Writer) : List Nat → Writer × Option GoError
  | [] => (w, none)
  | c :: cs =>
    if c = 0x5C ∨ c = 0x22 then
      match w.WriteRune 0x5C with
      | (w1, some e) => (w1, some e)
      | (w1, none) =>
        match w1.WriteRune c with
        | (w2, some e) => (w2, some e)
        | (w2, none) => writeEscaped w2 cs
    else
      match w.WriteRune c with
      | (w2, some e) => (w2, some e)
      | (w2, none) => writeEscaped w2 cs

/-- The function `writeValueString`: the writer after the call and the returned error. -/
def writeValueString (w : Writer) (value : GoString) : Writer × Option GoError :=
  let f := scan value
  let needsEscape := f.needsEscape || (f.needsQuotes && f.hasEscape)
  if f.needsQuotes then
    match w.WriteRune 0x22 with
    | (w1, some e) => (w1, some e)
    | (w1, none) =>
      let body :=
        if needsEscape then writeEscaped w1 (runes value)
        else w1.WriteString value
      match body with
      | (w2, some e) => (w2, some e)
      | (w2, none) =>
        match w2.WriteRune 0x22 with
        | (w3, some e) => (w3, some e)
        | (w3, none) => (w3, none)
  else
    match w.WriteString value with
    | (w1, some e) => (w1, some e)
    | (w1, none) => (w1, none)

/-- The bytes `writeValueString` emits for `value` on a fresh writer. -/
def encodeValue (value : GoString) : GoString :=
  (writeValueString ⟨[], none⟩ value).1.out

/-- The escaped form of a sequence of runes: every rune written as itself, a
backslash or a double quote preceded by one added backslash. -/
def escapeRunes (cs : List Nat) : GoString :=
  cs.flatMap (fun c => if c = 0x5C ∨ c = 0x22 then 0x5C :: encodeRune c else encodeRune c)

/-- The escaped form of a string byte by byte: every byte kept, a backslash or a
double quote preceded by one added backslash. -/
def escapeBytes (s : GoString) : GoString :=
  s.flatMap (fun b => if b = 0x5C ∨ b = 0x22 then [0x5C, b] else [b])

/-! ## Levels (level.go) -/

/-- The type `Level`, an integer. -/
abbrev Level := Int

/-- Debugging only. -/
def LevelDebug : Level := 0

/-- Informational. -/
def LevelInfo : Level := 1

/-- Warning. -/
def LevelWarning : Level := 2

/-- Error condition. -/
def LevelError : Level := 3

/-- The sentinel `errInvalidLevel`. -/
def errInvalidLevel : GoError := ⟨str "invalid level"⟩

/-- The decimal digits of a natural number, as bytes. -/
def decimal (n : Nat) : GoString := (Nat.toDigits 10 n).map Char.toNat

/-- The text `fmt` prints for an integer with the verbs `%d` and `%v`. -/
def formatInt (i : Int) : GoString :=
  if i < 0 then 0x2D :: decimal i.natAbs else decimal i.toNat

/-- The method `Level.String`. -/
def Level.String (s : Level) : GoString :=
  if s = LevelDebug then str "debug"
  else if s = LevelInfo then str "info"
  else if s = LevelWarning then str "warn"
  else if s = LevelError then str "error"
  else str "unknown " ++ formatInt s

/-- The library functions the level codec calls, taken as parameters:
`marshalString s` is the output of `json.Marshal` on the string `s` (which never fails);
`unmarshalString data` is `none` when `json.Unmarshal(data, &str)` returns an error and
otherwise the value of `str` after the call; `lowerTable` is `unicode.ToLower` on the
runes above `unicode.MaxASCII`. -/
structure Stdlib where
  marshalString : GoString → GoString
  unmarshalString : GoString → Option GoString
  lowerTable : Nat → Nat

/-- The function `unicode.ToLower`. -/
def unicodeToLower (lib : Stdlib) (r : Nat) : Nat :=
  if r ≤ 0x7F then (if 0x41 ≤ r ∧ r ≤ 0x5A then r + 0x20 else r)
  else lib.lowerTable r

/-- The function `strings.ToLower`: the ASCII fast path, and `strings.Map` over
`unicode.ToLower` for a string with a byte outside ASCII. -/
def ToLower (lib : Stdlib) (s : GoString) : GoString :=
  let isASCII := s.all (fun c => decide (c < 0x80))
  let hasUpper := s.any (fun c => decide (0x41 ≤ c ∧ c ≤ 0x5A))
  if isASCII then
    if !hasUpper then s
    else s.map (fun c => if 0x41 ≤ c ∧ c ≤ 0x5A then c + 0x20 else c)
  else (runes s).flatMap (fun r => encodeRune (unicodeToLower lib r))

/-- The method `Level.MarshalJSON`. -/
def Level.MarshalJSON (lib : Stdlib) (s : Level) : GoString × Option GoError :=
  (lib.marshalString (Level.String s), none)

/-- The method `(*Level).UnmarshalJSON`: the level stored in the receiver after the
call, and the returned error. -/
def Level.UnmarshalJSON (lib : Stdlib) (s : Level) (data : GoString) :
    Level × Option GoError :=
  match lib.unmarshalString data with
  | none => (s, some errInvalidLevel)
  | some text =>
    let lower := ToLower lib text
    if lower = str "debug" then (LevelDebug, none)
    else if lower = str "info" then (LevelInfo, none)
    else if lower = str "warn" ∨ lower = str "warning" then (LevelWarning, none)
    else if lower = str "error" then (LevelError, none)
    else (s, some errInvalidLevel)

/-- An instance of the library parameters on plain texts, for the examples: a string
is marshalled between double quotes, data between double quotes unmarshals to the bytes
in between, any other data is an error, and no rune above ASCII changes in lower case. -/
def plainLib : Stdlib where
  marshalString := fun s => [0x22] ++ s ++ [0x22]
  unmarshalString := fun data =>
    match data with
    | 0x22 :: rest =>
      if rest.getLast? = some 0x22 ∧ 0x22 ∉ rest.dropLast ∧ 0x5C ∉ rest.dropLast
      then some rest.dropLast else none
    | _ => none
  lowerTable := fun r => r

/-! ## Messages and the logfmt encoder (message.go) -/

/-- A `time.Time`, by its rendering under the layout `logfmtTimeFormat`. -/
structure Time where
  formatLogfmt : GoString
deriving DecidableEq, Repr

/-- The dynamic value of an `interface{}`, by the cases `writeProperty` tells apart.
A floating-point or complex value carries the text `fmt` prints for it.  `other` is
any remaining dynamic type: the text of its `Error()` method when it is an `error`,
the text of its `String()` method when it is a `fmt.Stringer`, and its `fmt.Sprint`
text. -/
inductive Value where
  | bool (v : Bool)
  | byte (v : Nat)
  | complex64 (printed : GoString)
  | complex128 (printed : GoString)
  | float32 (printed : GoString)
  | float64 (printed : GoString)
  | int (v : Int)
  | int16 (v : Int)
  | int32 (v : Int)
  | int64 (v : Int)
  | int8 (v : Int)
  | string (v : GoString)
  | uint (v : Nat)
  | uint16 (v : Nat)
  | uint32 (v : Nat)
  | uint64 (v : Nat)
  | uintptr (v : Nat)
  | other (asError : Option GoString) (asStringer : Option GoString) (printed : GoString)
deriving DecidableEq, Repr

/-- The type `Parameter`. -/
structure Parameter where
  Name : GoString
  Value : Value
deriving DecidableEq, Repr

/-- The type `Message`. -/
structure Message where
  Timestamp : Time
  Level : Level
  Text : GoString
  Err : Option GoError
  Parameters : List Parameter
  Context : List Parameter
  errorCode : GoString
  statusCode : Int
deriving DecidableEq, Repr

/-- The line terminator `eol`, set by `init` from `runtime.GOOS`. -/
def eol (windows : Bool) : GoString := if windows then [0x0D, 0x0A] else [0x0A]

/-- The call `fmt.Fprint(w, v)` for a value whose printed text is `text`. -/
def Fprint (w : Writer) (text : GoString) : Writer × Option GoError :=
  w.WriteString text

/-- The function `writeProperty`. -/
def writeProperty (w : Writer) (key : GoString) (value : Value) : Writer × Option GoError :=
  let w := (w.WriteRune 0x20).1
  let w := (w.WriteString key).1
  let w := (w.WriteRune 0x3D).1
  match value with
  | .bool v => Fprint w (if v then str "true" else str "false")
  | .byte v => Fprint w (decimal v)
  | .complex64 printed => writeValueString w printed
  | .complex128 printed => writeValueString w printed
  | .float32 printed => Fprint w printed
  | .float64 printed => Fprint w printed
  | .int v => Fprint w (formatInt v)
  | .int16 v => Fprint w (formatInt v)
  | .int32 v => Fprint w (formatInt v)
  | .int64 v => Fprint w (formatInt v)
  | .int8 v => Fprint w (formatInt v)
  | .string v => writeValueString w v
  | .uint v => Fprint w (decimal v)
  | .uint16 v => Fprint w (decimal v)
  | .uint32 v => Fprint w (decimal v)
  | .uint64 v => Fprint w (decimal v)
  | .uintptr v => Fprint w (decimal v)
  | .other (some text) _ _ => writeValueString w text
  | .other none (some text) _ => writeValueString w text
  | .other none none printed => writeValueString w printed

/-- The rendered value of a field: a boolean or a number by the text `fmt` prints for
it, without quotes; every other value by its text through `writeValueString`, which is
the `Error()` text of an error, else the `String()` text of a `fmt.Stringer`, else the
`fmt.Sprint` text. -/
def renderValue : Value → GoString
  | .bool v => if v then str "true" else str "false"
  | .byte v => decimal v
  | .complex64 printed => encodeValue printed
  | .complex128 printed => encodeValue printed
  | .float32 printed => printed
  | .float64 printed => printed
  | .int v => formatInt v
  | .int16 v => formatInt v
  | .int32 v => formatInt v
  | .int64 v => formatInt v
  | .int8 v => formatInt v
  | .string v => encodeValue v
  | .uint v => decimal v
  | .uint16 v => decimal v
  | .uint32 v => decimal v
  | .uint64 v => decimal v
  | .uintptr v => decimal v
  | .other (some text) _ _ => encodeValue text
  | .other none (some text) _ => encodeValue text
  | .other none none printed => encodeValue printed

/-- The bytes `writeProperty` emits for a field on a fresh writer. -/
def encodeProperty (key : GoString) (value : Value) : GoString :=
  (writeProperty ⟨[], none⟩ key value).1.out

/-- The method `(*Message).Logfmt`: the contents of the sink `w` after the call, for a
sink that accepts every write.  The encoder writes through a fresh `bufio.Writer` and
flushes it at the end. -/
def Message.Logfmt (windows : Bool) (m : Message) (sink : GoString) : GoString :=
  let writer : Writer := ⟨[], none⟩
  let writer := (writer.WriteString m.Timestamp.formatLogfmt).1
  let writer := (writer.WriteRune 0x20).1
  let writer := (writer.WriteString (Level.String m.Level)).1
  let writer := (writeProperty writer (str "msg") (.string m.Text)).1
  let writer :=
    match m.Err with
    | some e => (writeProperty writer (str "error") (.string e.text)).1
    | none => writer
  let writer := m.Parameters.foldl (fun w p => (writeProperty w p.Name p.Value).1) writer
  let writer := m.Context.foldl (fun w p => (writeProperty w p.Name p.Value).1) writer
  let writer :=
    if m.errorCode ≠ [] then (writeProperty writer (str "code") (.string m.errorCode)).1
    else writer
  let writer :=
    if m.statusCode ≠ 0 then (writeProperty writer (str "status") (.int m.statusCode)).1
    else writer
  let writer := (writer.WriteString (eol windows)).1
  sink ++ writer.out

/-- The method `(*Message).WriteTo`, which returns right after the call of `Logfmt`. -/
def Message.WriteTo (windows : Bool) (m : Message) (sink : GoString) : GoString :=
  m.Logfmt windows sink

/-! ## Handlers and the emit pipeline (log.go) -/

/-- A registered `Handler`: a tag telling handlers apart and the error its `Handle`
method returns for a message. -/
structure Handler where
  tag : Nat
  Handle : Message → Option GoError

/-- What the emit pipeline acts on: the bytes written to standard output and the
calls of `Handle` made so far, oldest first. -/
structure World where
  stdout : GoString
  handled : List (Nat × Message)
deriving DecidableEq, Repr

/-- The package variables `MinLevel`, `Print` (`none` is the nil hook) and `handlers`. -/
structure Globals where
  MinLevel : Level
  Print : Option (Message → World → World)
  handlers : List Handler

/-- The initial value of `Print`: write the message to standard output. -/
def defaultPrint (windows : Bool) (m : Message) (world : World) : World :=
  { world with stdout := m.WriteTo windows world.stdout }

/-- The initial package variables. -/
def initGlobals (windows : Bool) : Globals :=
  { MinLevel := LevelInfo, Print := some (defaultPrint windows), handlers := [] }

/-- The function `doPrint`. -/
def doPrint (g : Globals) (m : Message) (world : World) : World :=
  match g.Print with
  | none => world
  | some print =>
    if m.Level ≥ g.MinLevel then
      let world := print m world
      g.handlers.foldl
        (fun wd h =>
          let _ := h.Handle m
          { wd with handled := wd.handled ++ [(h.tag, m)] })
        world
    else world


/-! ## Options, construction and entry points (message.go, log.go) -/

/-- Modelled from the spec: the type `Option`, whose declaration is not in the files of
the package at hand, "a function from `Message` to mutated `Message`".  The Go function
mutates the message behind its pointer; here it returns the message after the call. -/
abbrev LogOption := Message → Message

/-- The function `newMessage`; `now` is the reading of `time.Now()`. -/
def newMessage (now : Time) (level : Level) (text : GoString) : Message :=
  { Timestamp := now, Level := level, Text := text, Err := none, Parameters := [],
    Context := [], errorCode := [], statusCode := 0 }

/-- The method `(*Message).applyOpt`. -/
def Message.applyOpt (m : Message) (opt : LogOption) : Message := opt m

/-- The method `(*Message).applyOpts`: the loop `for _, opt := range opts { opt(m) }`. -/
def Message.applyOpts (m : Message) (opts : List LogOption) : Message :=
  opts.foldl (fun msg opt => opt msg) m

/-- The method `(*Message).Error`. -/
def Message.Error (m : Message) : GoString := m.Text

/-- The method `(*Message).Code`. -/
def Message.Code (m : Message) : GoString := m.errorCode

/-- The method `(*Message).StatusCode`. -/
def Message.StatusCode (m : Message) : Int := m.statusCode

/-- The function `AddHandler`: `handlers = append(handlers, h)`. -/
def AddHandler (g : Globals) (h : Handler) : Globals :=
  { g with handlers := g.handlers ++ [h] }

/-- The function `Debug`: the returned message and the world after the call. -/
def Debug (g : Globals) (now : Time) (world : World) (text : GoString)
    (opts : List LogOption) : Message × World :=
  let m := newMessage now LevelDebug text
  let m := m.applyOpts opts
  (m, doPrint g m world)

/-- The function `DebugC`; `WithContext` is the option constructor of that name, whose
source is not in the files of the package at hand. -/
def DebugC {Ctx : Type} (WithContext : Ctx → LogOption) (g : Globals) (now : Time)
    (world : World) (ctx : Ctx) (text : GoString) (opts : List LogOption) :
    Message × World :=
  let m := newMessage now LevelDebug text
  let m := m.applyOpts opts
  let m := WithContext ctx m
  (m, doPrint g m world)

/-- The function `Info`. -/
def Info (g : Globals) (now : Time) (world : World) (text : GoString)
    (opts : List LogOption) : Message × World :=
  let m := newMessage now LevelInfo text
  let m := m.applyOpts opts
  (m, doPrint g m world)

/-- The function `InfoC`. -/
def InfoC {Ctx : Type} (WithContext : Ctx → LogOption) (g : Globals) (now : Time)
    (world : World) (ctx : Ctx) (text : GoString) (opts : List LogOption) :
    Message × World :=
  let m := newMessage now LevelInfo text
  let m := m.applyOpts opts
  let m := WithContext ctx m
  (m, doPrint g m world)

/-- The function `Warn`. -/
def Warn (g : Globals) (now : Time) (world : World) (text : GoString)
    (opts : List LogOption) : Message × World :=
  let m := newMessage now LevelWarning text
  let m := m.applyOpts opts
  (m, doPrint g m world)

/-- The function `WarnC`. -/
def WarnC {Ctx : Type} (WithContext : Ctx → LogOption) (g : Globals) (now : Time)
    (world : World) (ctx : Ctx) (text : GoString) (opts : List LogOption) :
    Message × World :=
  let m := newMessage now LevelWarning text
  let m := m.applyOpts opts
  let m := WithContext ctx m
  (m, doPrint g m world)

/-- The function `Error`. -/
def Error (g : Globals) (now : Time) (world : World) (text : GoString)
    (opts : List LogOption) : Message × World :=
  let m := newMessage now LevelError text
  let m := m.applyOpts opts
  (m, doPrint g m world)

/-- The function `ErrorC`. -/
def ErrorC {Ctx : Type} (WithContext : Ctx → LogOption) (g : Globals) (now : Time)
    (world : World) (ctx : Ctx) (text : GoString) (opts : List LogOption) :
    Message × World :=
  let m := newMessage now LevelError text
  let m := m.applyOpts opts
  let m := WithContext ctx m
  (m, doPrint g m world)

/-- The function `ErrorCE`; `WithError` is the option constructor of that name, whose
source is not in the files of the package at hand, and `err` is `none` for a nil error. -/
def ErrorCE {Ctx : Type} (WithContext : Ctx → LogOption)
    (WithError : Option GoError → LogOption) (g : Globals) (now : Time) (world : World)
    (ctx : Ctx) (err : Option GoError) (text : GoString) (opts : List LogOption) :
    Message × World :=
  let m := newMessage now LevelError text
  let m := m.applyOpts opts
  let m := WithContext ctx m
  let m := WithError err m
  (m, doPrint g m world)

/-! ## The rendering of a field in the words of its description -/

/-- The natural text of a value whose dynamic type is a built-in boolean or integer
type: `true` or `false`, or the decimal digits. -/
def Value.naturalText : Value → Option GoString
  | .bool v => some (if v then str "true" else str "false")
  | .byte v => some (decimal v)
  | .int v => some (formatInt v)
  | .int16 v => some (formatInt v)
  | .int32 v => some (formatInt v)
  | .int64 v => some (formatInt v)
  | .int8 v => some (formatInt v)
  | .uint v => some (decimal v)
  | .uint16 v => some (decimal v)
  | .uint32 v => some (decimal v)
  | .uint64 v => some (decimal v)
  | .uintptr v => some (decimal v)
  | _ => none

/-- The text of `Error()` for a value that is an `error`. -/
def Value.errorText : Value → Option GoString
  | .other asError _ _ => asError
  | _ => none

/-- The text of `String()` for a value that exposes it. -/
def Value.stringerText : Value → Option GoString
  | .other _ asStringer _ => asStringer
  | _ => none

/-- The generic textual conversion `fmt.Sprint(value)`. -/
def Value.sprint : Value → GoString
  | .bool v => if v then str "true" else str "false"
  | .byte v => decimal v
  | .complex64 printed => printed
  | .complex128 printed => printed
  | .float32 printed => printed
  | .float64 printed => printed
  | .int v => formatInt v
  | .int16 v => formatInt v
  | .int32 v => formatInt v
  | .int64 v => formatInt v
  | .int8 v => formatInt v
  | .string v => v
  | .uint v => decimal v
  | .uint16 v => decimal v
  | .uint32 v => decimal v
  | .uint64 v => decimal v
  | .uintptr v => decimal v
  | .other _ _ printed => printed

/-- The rendered value in the priority order of the description: the natural text of a
boolean or an integer, without quotes; otherwise the `Error()` text of an error through
the string-quoting rule; otherwise the `String()` text through the string-quoting rule;
otherwise the generic textual conversion through the string-quoting rule. -/
def renderByPriority (value : Value) : GoString :=
  match value.naturalText with
  | some text => text
  | none =>
    match value.errorText with
    | some text => encodeValue text
    | none =>
      match value.stringerText with
      | some text => encodeValue text
      | none => encodeValue value.sprint

/-- A string with every backslash doubled and every other byte kept. -/
def doubleBackslashBytes (s : GoString) : GoString :=
  s.flatMap (fun b => if b = 0x5C then [0x5C, 0x5C] else [b])

/-! ## UTF-8: one decoding step -/

theorem encodeRune_ascii (r : Nat) (h : r < 0x80) : encodeRune r = [r] := by
  have e1 : r ≤ 0x7F := by omega
  rw [encodeRune, if_pos e1]

theorem encodeRune_two (b s1 : Nat) (hb : 0xC2 ≤ b) (hb2 : b < 0xE0)
    (h1 : 0x80 ≤ s1) (h2 : s1 ≤ 0xBF) :
    encodeRune ((b % 32) * 64 + s1 % 64) = [b, s1] := by
  have e1 : ¬ ((b % 32) * 64 + s1 % 64 ≤ 0x7F) := by omega
  have e2 : (b % 32) * 64 + s1 % 64 ≤ 0x7FF := by omega
  have e3 : 0xC0 + ((b % 32) * 64 + s1 % 64) / 64 = b := by omega
  have e4 : 0x80 + ((b % 32) * 64 + s1 % 64) % 64 = s1 := by omega
  rw [encodeRune, if_neg e1, if_pos e2, e3, e4]

theorem encodeRune_three (b s1 s2 : Nat) (hb : 0xE0 ≤ b) (hb2 : b < 0xF0)
    (h1 : 0x80 ≤ s1) (h2 : s1 ≤ 0xBF)
    (hlo : b = 0xE0 → 0xA0 ≤ s1) (hhi : b = 0xED → s1 ≤ 0x9F)
    (h3 : 0x80 ≤ s2) (h4 : s2 ≤ 0xBF) :
    encodeRune ((b % 16) * 4096 + (s1 % 64) * 64 + s2 % 64) = [b, s1, s2] := by
  generalize hr : (b % 16) * 4096 + (s1 % 64) * 64 + s2 % 64 = r
  have e1 : ¬ (r ≤ 0x7F) := by omega
  have e2 : ¬ (r ≤ 0x7FF) := by omega
  have e3 : ¬ (MaxRune < r ∨ (0xD800 ≤ r ∧ r ≤ 0xDFFF)) := by
    unfold MaxRune; omega
  have e4 : r ≤ 0xFFFF := by omega
  have e5 : 0xE0 + r / 4096 = b := by omega
  have e6 : 0x80 + r / 64 % 64 = s1 := by omega
  have e7 : 0x80 + r % 64 = s2 := by omega
  rw [encodeRune, if_neg e1, if_neg e2, if_neg e3, if_pos e4, e5, e6, e7]

theorem encodeRune_four (b s1 s2 s3 : Nat) (hb : 0xF0 ≤ b) (hb2 : b ≤ 0xF4)
    (h1 : 0x80 ≤ s1) (h2 : s1 ≤ 0xBF)
    (hlo : b = 0xF0 → 0x90 ≤ s1) (hhi : b = 0xF4 → s1 ≤ 0x8F)
    (h3 : 0x80 ≤ s2) (h4 : s2 ≤ 0xBF) (h5 : 0x80 ≤ s3) (h6 : s3 ≤ 0xBF) :
    encodeRune ((b % 8) * 262144 + (s1 % 64) * 4096 + (s2 % 64) * 64 + s3 % 64)
      = [b, s1, s2, s3] := by
  generalize hr : (b % 8) * 262144 + (s1 % 64) * 4096 + (s2 % 64) * 64 + s3 % 64 = r
  have e1 : ¬ (r ≤ 0x7F) := by omega
  have e2 : ¬ (r ≤ 0x7FF) := by omega
  have e3 : ¬ (MaxRune < r ∨ (0xD800 ≤ r ∧ r ≤ 0xDFFF)) := by
    unfold MaxRune; omega
  have e4 : ¬ (r ≤ 0xFFFF) := by omega
  have e5 : 0xF0 + r / 262144 = b := by omega
  have e6 : 0x80 + r / 4096 % 64 = s1 := by omega
  have e7 : 0x80 + r / 64 % 64 = s2 := by omega
  have e8 : 0x80 + r % 64 = s3 := by omega
  rw [encodeRune, if_neg e1, if_neg e2, if_neg e3, if_neg e4, e5, e6, e7, e8]

theorem encodeRune_two_of (r b s1 : Nat) (hr : r = (b % 32) * 64 + s1 % 64)
    (hb : 0xC2 ≤ b) (hb2 : b < 0xE0) (h1 : 0x80 ≤ s1) (h2 : s1 ≤ 0xBF) :
    encodeRune r = [b, s1] := by
  subst hr; exact encodeRune_two b s1 hb hb2 h1 h2

theorem encodeRune_three_of (r b s1 s2 : Nat)
    (hr : r = (b % 16) * 4096 + (s1 % 64) * 64 + s2 % 64)
    (hb : 0xE0 ≤ b) (hb2 : b < 0xF0) (h1 : 0x80 ≤ s1) (h2 : s1 ≤ 0xBF)
    (hlo : b = 0xE0 → 0xA0 ≤ s1) (hhi : b = 0xED → s1 ≤ 0x9F)
    (h3 : 0x80 ≤ s2) (h4 : s2 ≤ 0xBF) :
    encodeRune r = [b, s1, s2] := by
  subst hr; exact encodeRune_three b s1 s2 hb hb2 h1 h2 hlo hhi h3 h4

theorem encodeRune_four_of (r b s1 s2 s3 : Nat)
    (hr : r = (b % 8) * 262144 + (s1 % 64) * 4096 + (s2 % 64) * 64 + s3 % 64)
    (hb : 0xF0 ≤ b) (hb2 : b ≤ 0xF4) (h1 : 0x80 ≤ s1) (h2 : s1 ≤ 0xBF)
    (hlo : b = 0xF0 → 0x90 ≤ s1) (hhi : b = 0xF4 → s1 ≤ 0x8F)
    (h3 : 0x80 ≤ s2) (h4 : s2 ≤ 0xBF) (h5 : 0x80 ≤ s3) (h6 : s3 ≤ 0xBF) :
    encodeRune r = [b, s1, s2, s3] := by
  subst hr; exact encodeRune_four b s1 s2 s3 hb hb2 h1 h2 hlo hhi h3 h4 h5 h6

theorem decodeRune_ascii (b : Nat) (bs : GoString) (h : b < 0x80) :
    decodeRune (b :: bs) = (b, 1) := by
  simp [decodeRune, h]


/-- The decoding step after the lead byte has fixed the width `sz` and the bounds
`lo`, `hi` of the second byte. -/
theorem decodeRune_lead (b : Nat) (bs : GoString) (sz lo hi : Nat)
    (h0 : ¬ b < 0x80) (hbad : ¬ (b < 0xC2 ∨ 0xF4 < b))
    (hsz : (if b < 0xE0 then 2 else if b < 0xF0 then 3 else 4) = sz)
    (hlo : (if b = 0xE0 then 0xA0 else if b = 0xF0 then 0x90 else 0x80) = lo)
    (hhi : (if b = 0xED then 0x9F else if b = 0xF4 then 0x8F else 0xBF) = hi) :
    decodeRune (b :: bs) =
      if bs.length + 1 < sz then (RuneError, 1) else
      if bs.getD 0 0 < lo ∨ hi < bs.getD 0 0 then (RuneError, 1) else
      if sz ≤ 2 then ((b % 32) * 64 + bs.getD 0 0 % 64, 2) else
      if bs.getD 1 0 < 0x80 ∨ 0xBF < bs.getD 1 0 then (RuneError, 1) else
      if sz ≤ 3 then ((b % 16) * 4096 + (bs.getD 0 0 % 64) * 64 + bs.getD 1 0 % 64, 3) else
      if bs.getD 2 0 < 0x80 ∨ 0xBF < bs.getD 2 0 then (RuneError, 1) else
      ((b % 8) * 262144 + (bs.getD 0 0 % 64) * 4096 + (bs.getD 1 0 % 64) * 64
        + bs.getD 2 0 % 64, 4) := by
  simp only [decodeRune, List.length_cons, List.getD_cons_zero, List.getD_cons_succ, hsz,
    hlo, hhi, h0, hbad, if_false]
  rw [if_neg (by omega : ¬ bs.length + 1 < 1)]

set_option maxHeartbeats 400000 in
/-- The outcome `d` of one decoding step is an ASCII byte, an encoding error, or a
well-formed sequence of two to four bytes, each at least `0x80`, which `encodeRune`
gives back. -/
theorem decodeRune_view (b : Nat) (bs : GoString) (d : Nat × Nat)
    (hd : decodeRune (b :: bs) = d) :
    (b < 0x80 ∧ d = (b, 1)) ∨
    (0x80 ≤ b ∧ d = (RuneError, 1)) ∨
    (0x80 ≤ b ∧ 2 ≤ d.2 ∧ d.2 ≤ (b :: bs).length ∧ 0x80 ≤ d.1 ∧ d.1 ≤ MaxRune ∧
      encodeRune d.1 = (b :: bs).take d.2 ∧ ∀ x ∈ (b :: bs).take d.2, 0x80 ≤ x) := by
  by_cases h0 : b < 0x80
  · rw [decodeRune_ascii b bs h0] at hd
    exact Or.inl ⟨h0, hd.symm⟩
  right
  have hb : 0x80 ≤ b := by omega
  by_cases hbad : b < 0xC2 ∨ 0xF4 < b
  · left
    refine ⟨hb, ?_⟩
    rw [← hd]
    simp [decodeRune, h0, hbad]
  obtain ⟨sz, hsz⟩ : ∃ sz, (if b < 0xE0 then 2 else if b < 0xF0 then 3 else 4) = sz := ⟨_, rfl⟩
  obtain ⟨lo, hlo⟩ :
    ∃ lo, (if b = 0xE0 then 0xA0 else if b = 0xF0 then 0x90 else 0x80) = lo := ⟨_, rfl⟩
  obtain ⟨hi, hhi⟩ :
    ∃ hi, (if b = 0xED then 0x9F else if b = 0xF4 then 0x8F else 0xBF) = hi := ⟨_, rfl⟩
  rw [decodeRune_lead b bs sz lo hi h0 hbad hsz hlo hhi] at hd
  have fsz : (b < 0xE0 ∧ sz = 2) ∨ (0xE0 ≤ b ∧ b < 0xF0 ∧ sz = 3) ∨ (0xF0 ≤ b ∧ sz = 4) := by
    split_ifs at hsz <;> omega
  have flo : (b = 0xE0 ∧ lo = 0xA0) ∨ (b = 0xF0 ∧ lo = 0x90) ∨
      (b ≠ 0xE0 ∧ b ≠ 0xF0 ∧ lo = 0x80) := by
    split_ifs at hlo <;> omega
  have fhi : (b = 0xED ∧ hi = 0x9F) ∨ (b = 0xF4 ∧ hi = 0x8F) ∨
      (b ≠ 0xED ∧ b ≠ 0xF4 ∧ hi = 0xBF) := by
    split_ifs at hhi <;> omega
  clear hsz hlo hhi
  rcases bs with _ | ⟨s1, _ | ⟨s2, _ | ⟨s3, t⟩⟩⟩ <;>
    simp only [List.length_cons, List.length_nil, List.getD_cons_zero,
      List.getD_cons_succ, List.getD_nil] at hd <;>
    split_ifs at hd <;> subst hd <;>
    first
      | (exfalso; omega)
      | (with_reducible exact Or.inl ⟨hb, rfl⟩)
      | (right
         refine ⟨hb, ?_, ?_, ?_, ?_, ?_, ?_⟩
         · dsimp only; omega
         · dsimp only [List.length_cons]; omega
         · dsimp only; omega
         · dsimp only [MaxRune]; omega
         · dsimp only [List.take_succ_cons, List.take_zero]
           first
             | ((with_reducible refine encodeRune_two_of _ _ _ ?_ ?_ ?_ ?_ ?_) <;> omega)
             | ((with_reducible refine
                  encodeRune_three_of _ _ _ _ ?_ ?_ ?_ ?_ ?_ ?_ ?_ ?_ ?_) <;> omega)
             | ((with_reducible refine
                  encodeRune_four_of _ _ _ _ _ ?_ ?_ ?_ ?_ ?_ ?_ ?_ ?_ ?_ ?_ ?_) <;> omega)
         · simp only [List.take_succ_cons, List.take_zero, List.mem_cons,
             List.mem_nil_iff, or_false]
           intro x hx
           omega)

/-! ## UTF-8: walking a string -/

theorem decodeRune_width (b : Nat) (bs : GoString) :
    1 ≤ (decodeRune (b :: bs)).2 ∧ (decodeRune (b :: bs)).2 ≤ (b :: bs).length := by
  rcases decodeRune_view b bs _ rfl with ⟨_, h⟩ | ⟨_, h⟩ | ⟨_, h2, h3, _⟩
  · rw [h]; simp
  · rw [h]; simp
  · exact ⟨by omega, h3⟩

theorem length_drop_decodeRune (b : Nat) (bs : GoString) :
    ((b :: bs).drop (decodeRune (b :: bs)).2).length < (b :: bs).length := by
  have h := decodeRune_width b bs
  rw [List.length_drop]
  simp only [List.length_cons] at h ⊢
  omega

theorem runesFuel_eq (fuel1 : Nat) :
    ∀ (fuel2 : Nat) (s : GoString), s.length ≤ fuel1 → s.length ≤ fuel2 →
      runesFuel fuel1 s = runesFuel fuel2 s := by
  induction fuel1 with
  | zero =>
    intro fuel2 s h1 _
    have hs : s = [] := List.length_eq_zero.mp (by omega)
    subst hs
    cases fuel2 <;> rfl
  | succ n ih =>
    intro fuel2 s h1 h2
    cases s with
    | nil => cases fuel2 <;> rfl
    | cons b bs =>
      cases fuel2 with
      | zero => simp at h2
      | succ m =>
        have hlt := length_drop_decodeRune b bs
        simp only [runesFuel]
        rw [ih m _ (by omega) (by omega)]

theorem runes_nil : runes [] = [] := rfl

theorem runes_cons (b : Nat) (bs : GoString) :
    runes (b :: bs) =
      (decodeRune (b :: bs)).1 :: runes ((b :: bs).drop (decodeRune (b :: bs)).2) := by
  have hlt := length_drop_decodeRune b bs
  simp only [List.length_cons] at hlt
  simp only [runes, List.length_cons, runesFuel]
  rw [runesFuel_eq bs.length _ _ (by omega) (le_refl _)]

theorem validFuel_eq (fuel1 : Nat) :
    ∀ (fuel2 : Nat) (s : GoString), s.length ≤ fuel1 → s.length ≤ fuel2 →
      validFuel fuel1 s = validFuel fuel2 s := by
  induction fuel1 with
  | zero =>
    intro fuel2 s h1 _
    have hs : s = [] := List.length_eq_zero.mp (by omega)
    subst hs
    cases fuel2 <;> rfl
  | succ n ih =>
    intro fuel2 s h1 h2
    cases s with
    | nil => cases fuel2 <;> rfl
    | cons b bs =>
      cases fuel2 with
      | zero => simp at h2
      | succ m =>
        have hlt := length_drop_decodeRune b bs
        simp only [validFuel]
        rw [ih m _ (by omega) (by omega)]

theorem ValidString_nil : ValidString [] = true := rfl

theorem ValidString_cons (b : Nat) (bs : GoString) :
    ValidString (b :: bs) =
      (!((decodeRune (b :: bs)).1 == RuneError && (decodeRune (b :: bs)).2 == 1)
        && ValidString ((b :: bs).drop (decodeRune (b :: bs)).2)) := by
  have hlt := length_drop_decodeRune b bs
  simp only [List.length_cons] at hlt
  simp only [ValidString, List.length_cons, validFuel]
  rw [validFuel_eq bs.length _ _ (by omega) (le_refl _)]

/-- Induction along the decoding steps of a string. -/
theorem string_induction {P : GoString → Prop} (hnil : P [])
    (hstep : ∀ b bs, P ((b :: bs).drop (decodeRune (b :: bs)).2) → P (b :: bs))
    (s : GoString) : P s := by
  suffices H : ∀ n (t : GoString), t.length = n → P t from H _ s rfl
  intro n
  induction n using Nat.strong_induction_on with
  | _ n ih =>
    intro t h
    cases t with
    | nil => exact hnil
    | cons b bs =>
      apply hstep
      exact ih _ (by rw [← h]; exact length_drop_decodeRune b bs) _ rfl

/-- One decoding step in the three shapes of `decodeRune_view`, with the rest of the
string made explicit. -/
theorem decode_step (b : Nat) (bs : GoString) :
    (b < 0x80 ∧ (b :: bs).drop (decodeRune (b :: bs)).2 = bs ∧
      runes (b :: bs) = b :: runes bs ∧ ValidString (b :: bs) = ValidString bs) ∨
    (0x80 ≤ b ∧ (b :: bs).drop (decodeRune (b :: bs)).2 = bs ∧
      runes (b :: bs) = RuneError :: runes bs ∧ ValidString (b :: bs) = false) ∨
    (∃ r pre rest, b :: bs = pre ++ rest ∧
      (b :: bs).drop (decodeRune (b :: bs)).2 = rest ∧ 0x80 ≤ r ∧ r ≤ MaxRune ∧
      encodeRune r = pre ∧ (∀ x ∈ pre, 0x80 ≤ x) ∧
      runes (b :: bs) = r :: runes rest ∧ ValidString (b :: bs) = ValidString rest) := by
  rcases decodeRune_view b bs _ rfl with ⟨h1, h⟩ | ⟨h1, h⟩ | ⟨h1, h2, h3, h4, h5, h6, h7⟩
  · left
    refine ⟨h1, by rw [h]; rfl, ?_, ?_⟩
    · rw [runes_cons, h]; rfl
    · rw [ValidString_cons, h]
      have : ¬ (b = RuneError) := by unfold RuneError; omega
      simp [this]
  · right; left
    refine ⟨h1, by rw [h]; rfl, ?_, ?_⟩
    · rw [runes_cons, h]; rfl
    · rw [ValidString_cons, h]; simp
  · right; right
    refine ⟨(decodeRune (b :: bs)).1, (b :: bs).take (decodeRune (b :: bs)).2,
      (b :: bs).drop (decodeRune (b :: bs)).2, (List.take_append_drop _ _).symm, rfl, h4, h5,
      h6, h7, runes_cons b bs, ?_⟩
    rw [ValidString_cons]
    have : ¬ ((decodeRune (b :: bs)).2 = 1) := by omega
    simp [this]

/-- A byte below `0x80` occurs in a string exactly when it occurs among its runes. -/
theorem mem_runes_ascii (x : Nat) (hx : x < 0x80) (s : GoString) :
    x ∈ runes s ↔ x ∈ s := by
  induction s using string_induction with
  | hnil => simp [runes_nil]
  | hstep b bs ih =>
    rcases decode_step b bs with ⟨_, hd, hr, _⟩ | ⟨h1, hd, hr, _⟩ |
      ⟨r, pre, rest, hsplit, hd, hr1, _, _, hpre, hr, _⟩
    · rw [hd] at ih
      rw [hr, List.mem_cons, List.mem_cons, ih]
    · rw [hd] at ih
      rw [hr, List.mem_cons, List.mem_cons, ih]
      have e1 : ¬ x = RuneError := by unfold RuneError; omega
      have e2 : ¬ x = b := by omega
      simp [e1, e2]
    · rw [hd] at ih
      rw [hr, hsplit, List.mem_cons, List.mem_append, ih]
      have e1 : ¬ x = r := by omega
      have e2 : ¬ x ∈ pre := fun hm => by have := hpre x hm; omega
      simp [e1, e2]

/-- Re-encoding the runes of a valid string gives the string back. -/
theorem encode_runes_of_valid (s : GoString) :
    ValidString s = true → (runes s).flatMap encodeRune = s := by
  induction s using string_induction with
  | hnil => intro _; rfl
  | hstep b bs ih =>
    intro hv
    rcases decode_step b bs with ⟨h1, hd, hr, hval⟩ | ⟨_, _, _, hval⟩ |
      ⟨r, pre, rest, hsplit, hd, _, _, henc, _, hr, hval⟩
    · rw [hd] at ih
      rw [hr, List.flatMap_cons, encodeRune_ascii b h1, ih (by rw [← hval]; exact hv)]
      rfl
    · rw [hval] at hv; exact absurd hv (by simp)
    · rw [hd] at ih
      rw [hr, List.flatMap_cons, henc, ih (by rw [← hval]; exact hv), hsplit]

/-! ## The buffered writer -/

theorem WriteRune_ok (out : GoString) (r : Nat) :
    Writer.WriteRune ⟨out, none⟩ r = (⟨out ++ encodeRune r, none⟩, none) := rfl

theorem WriteString_ok (out s : GoString) :
    Writer.WriteString ⟨out, none⟩ s = (⟨out ++ s, none⟩, none) := rfl

theorem writer_eta (w : Writer) (hw : w.err = none) : w = ⟨w.out, none⟩ := by
  cases w; simp_all

theorem encodeRune_backslash : encodeRune 0x5C = [0x5C] := by decide

theorem encodeRune_quote : encodeRune 0x22 = [0x22] := by decide

/-! ## The escaping loop and the scanning loop -/

theorem escapeRunes_cons (c : Nat) (cs : List Nat) :
    escapeRunes (c :: cs) =
      (if c = 0x5C ∨ c = 0x22 then 0x5C :: encodeRune c else encodeRune c)
        ++ escapeRunes cs := by
  simp [escapeRunes, List.flatMap_cons]

theorem writeEscaped_ok (cs : List Nat) :
    ∀ out : GoString, writeEscaped ⟨out, none⟩ cs = (⟨out ++ escapeRunes cs, none⟩, none) := by
  induction cs with
  | nil => intro out; simp [writeEscaped, escapeRunes]
  | cons c cs ih =>
    intro out
    by_cases hc : c = 0x5C ∨ c = 0x22
    · simp only [writeEscaped, if_pos hc, WriteRune_ok, ih, escapeRunes_cons,
        encodeRune_backslash]
      simp
    · simp only [writeEscaped, if_neg hc, WriteRune_ok, ih, escapeRunes_cons]
      simp

theorem foldl_scanStep (cs : List Nat) :
    ∀ f : Flags,
      (cs.foldl scanStep f).needsQuotes =
          (f.needsQuotes || cs.any (fun c => decide (c = 0x22 ∨ c = 0x3D ∨ c ≤ 0x20))) ∧
      (cs.foldl scanStep f).needsEscape =
          (f.needsEscape || cs.any (fun c => decide (c = 0x22 ∨ c = 0x3D))) ∧
      (cs.foldl scanStep f).hasEscape =
          (f.hasEscape || cs.any (fun c => decide (c = 0x5C))) := by
  induction cs with
  | nil => intro f; simp
  | cons c cs ih =>
    intro f
    rw [List.foldl_cons]
    obtain ⟨h1, h2, h3⟩ := ih (scanStep f c)
    rw [h1, h2, h3]
    simp only [List.any_cons, scanStep]
    by_cases hq : c = 0x22 ∨ c = 0x3D
    · have e1 : c = 0x22 ∨ c = 0x3D ∨ c ≤ 0x20 := by omega
      have e2 : ¬ c = 0x5C := by omega
      simp [hq, e1, e2]
    · by_cases hs : c ≤ 0x20
      · have e1 : c = 0x22 ∨ c = 0x3D ∨ c ≤ 0x20 := by omega
        have e2 : ¬ c = 0x5C := by omega
        simp [hq, hs, e1, e2]
      · have e1 : ¬ (c = 0x22 ∨ c = 0x3D ∨ c ≤ 0x20) := by omega
        by_cases hb : c = 0x5C
        · simp [hq, hs, e1, hb]
        · simp [hq, hs, e1, hb]

theorem scan_needsQuotes (value : GoString) :
    (scan value).needsQuotes = true ↔
      ∃ c ∈ runes value, c = 0x22 ∨ c = 0x3D ∨ c ≤ 0x20 := by
  rw [scan, (foldl_scanStep (runes value) _).1]
  simp

theorem scan_needsEscape (value : GoString) :
    (scan value).needsEscape = true ↔ ∃ c ∈ runes value, c = 0x22 ∨ c = 0x3D := by
  rw [scan, (foldl_scanStep (runes value) _).2.1]
  simp

theorem scan_hasEscape (value : GoString) :
    (scan value).hasEscape = true ↔ 0x5C ∈ runes value := by
  rw [scan, (foldl_scanStep (runes value) _).2.2]
  simp

/-! ## `writeValueString` in closed form -/

/-- On a writer without error, `writeValueString` appends `encodeValue value` and
returns no error. -/
theorem writeValueString_ok (out value : GoString) :
    writeValueString ⟨out, none⟩ value = (⟨out ++ encodeValue value, none⟩, none) := by
  unfold encodeValue writeValueString
  generalize scan value = f
  rcases f with ⟨q, e, h⟩
  cases q <;> cases e <;> cases h <;>
    simp [WriteRune_ok, WriteString_ok, writeEscaped_ok]

/-- The emitted bytes by cases on the flags of the scanning loop. -/
theorem encodeValue_eq (value : GoString) :
    encodeValue value =
      if (scan value).needsQuotes = true then
        0x22 :: (if ((scan value).needsEscape ||
            ((scan value).needsQuotes && (scan value).hasEscape)) = true
          then escapeRunes (runes value) else value) ++ [0x22]
      else value := by
  unfold encodeValue writeValueString
  generalize scan value = f
  rcases f with ⟨q, e, h⟩
  cases q <;> cases e <;> cases h <;>
    simp [WriteRune_ok, WriteString_ok, writeEscaped_ok, encodeRune_quote]

/-! ## Escaping byte by byte -/

theorem escapeBytes_cons (b : Nat) (s : GoString) :
    escapeBytes (b :: s) = (if b = 0x5C ∨ b = 0x22 then [0x5C, b] else [b]) ++ escapeBytes s := by
  simp [escapeBytes, List.flatMap_cons]

theorem escapeBytes_append (s t : GoString) :
    escapeBytes (s ++ t) = escapeBytes s ++ escapeBytes t := by
  simp [escapeBytes, List.flatMap_append]

theorem escapeBytes_eq_self (s : GoString) (h : ∀ b ∈ s, ¬ (b = 0x5C ∨ b = 0x22)) :
    escapeBytes s = s := by
  induction s with
  | nil => rfl
  | cons b s ih =>
    rw [escapeBytes_cons, if_neg (h b (List.mem_cons_self _ _)),
      ih (fun x hx => h x (List.mem_cons_of_mem _ hx))]
    rfl

theorem escapeBytes_injective (s : GoString) :
    ∀ t : GoString, escapeBytes s = escapeBytes t → s = t := by
  induction s with
  | nil =>
    intro t h
    cases t with
    | nil => rfl
    | cons b t =>
      rw [escapeBytes_cons] at h
      split_ifs at h <;> simp [escapeBytes] at h
  | cons a s ih =>
    intro t h
    cases t with
    | nil =>
      rw [escapeBytes_cons] at h
      split_ifs at h <;> simp [escapeBytes] at h
    | cons b t =>
      rw [escapeBytes_cons, escapeBytes_cons] at h
      by_cases ha : a = 0x5C ∨ a = 0x22 <;> by_cases hb : b = 0x5C ∨ b = 0x22
      · rw [if_pos ha, if_pos hb] at h
        simp only [List.cons_append, List.nil_append, List.cons.injEq, true_and] at h
        rw [h.1, ih t h.2]
      · rw [if_pos ha, if_neg hb] at h
        simp only [List.cons_append, List.nil_append, List.cons.injEq] at h
        exact absurd (Or.inl h.1.symm) hb
      · rw [if_neg ha, if_pos hb] at h
        simp only [List.cons_append, List.nil_append, List.cons.injEq] at h
        exact absurd (Or.inl h.1) ha
      · rw [if_neg ha, if_neg hb] at h
        simp only [List.cons_append, List.nil_append, List.cons.injEq] at h
        rw [h.1, ih t h.2]

/-- On a valid string the escaping loop over runes is the escaping byte by byte. -/
theorem escapeRunes_of_valid (s : GoString) :
    ValidString s = true → escapeRunes (runes s) = escapeBytes s := by
  induction s using string_induction with
  | hnil => intro _; rfl
  | hstep b bs ih =>
    intro hv
    rcases decode_step b bs with ⟨h1, hd, hr, hval⟩ | ⟨_, _, _, hval⟩ |
      ⟨r, pre, rest, hsplit, hd, hr1, _, henc, hpre, hr, hval⟩
    · rw [hd] at ih
      rw [hr, escapeRunes_cons, escapeBytes_cons, encodeRune_ascii b h1,
        ih (by rw [← hval]; exact hv)]
    · rw [hval] at hv; exact absurd hv (by simp)
    · rw [hd] at ih
      have hns : ¬ (r = 0x5C ∨ r = 0x22) := by omega
      rw [hr, escapeRunes_cons, if_neg hns, henc, ih (by rw [← hval]; exact hv), hsplit,
        escapeBytes_append,
        escapeBytes_eq_self pre (fun x hx => by have := hpre x hx; omega)]

theorem exists_rune_iff_exists_byte (s : GoString) (p : Nat → Prop)
    (hp : ∀ x, p x → x < 0x80) : (∃ c ∈ runes s, p c) ↔ ∃ b ∈ s, p b := by
  constructor
  · rintro ⟨c, hc, hpc⟩
    exact ⟨c, (mem_runes_ascii c (hp c hpc) s).mp hc, hpc⟩
  · rintro ⟨c, hc, hpc⟩
    exact ⟨c, (mem_runes_ascii c (hp c hpc) s).mpr hc, hpc⟩

/-- The emitted bytes when no rune asks for quotes. -/
theorem encodeValue_plain (value : GoString)
    (h : ¬ ∃ c ∈ runes value, c = 0x22 ∨ c = 0x3D ∨ c ≤ 0x20) : encodeValue value = value := by
  have hq : ¬ (scan value).needsQuotes = true := fun hq => h ((scan_needsQuotes value).mp hq)
  rw [encodeValue_eq, if_neg hq]

/-- The emitted bytes when a rune asks for escaping: a double quote or an equals sign,
or a backslash next to a rune that asks for quotes. -/
theorem encodeValue_escaped (value : GoString)
    (h : (∃ c ∈ runes value, c = 0x22 ∨ c = 0x3D) ∨
      ((∃ c ∈ runes value, c ≤ 0x20) ∧ 0x5C ∈ runes value)) :
    encodeValue value = [0x22] ++ escapeRunes (runes value) ++ [0x22] := by
  have hq : (scan value).needsQuotes = true := by
    rw [scan_needsQuotes]
    rcases h with ⟨c, hc, h1⟩ | ⟨⟨c, hc, h1⟩, _⟩
    · exact ⟨c, hc, by omega⟩
    · exact ⟨c, hc, by omega⟩
  have he : ((scan value).needsEscape ||
      ((scan value).needsQuotes && (scan value).hasEscape)) = true := by
    rcases h with h | ⟨_, h2⟩
    · rw [(scan_needsEscape value).mpr h]; rfl
    · rw [hq, (scan_hasEscape value).mpr h2]; simp
  rw [encodeValue_eq, if_pos hq, if_pos he]
  rfl

/-- The emitted bytes when a rune asks for quotes and none for escaping. -/
theorem encodeValue_verbatim (value : GoString)
    (hs : ∃ c ∈ runes value, c ≤ 0x20) (h1 : 0x22 ∉ runes value) (h2 : 0x3D ∉ runes value)
    (h3 : 0x5C ∉ runes value) : encodeValue value = [0x22] ++ value ++ [0x22] := by
  have hq : (scan value).needsQuotes = true := by
    rw [scan_needsQuotes]
    obtain ⟨c, hc, h⟩ := hs
    exact ⟨c, hc, by omega⟩
  have hne : ¬ (scan value).needsEscape = true := by
    rw [scan_needsEscape]
    rintro ⟨c, hc, rfl | rfl⟩
    · exact h1 hc
    · exact h2 hc
  have hh : ¬ (scan value).hasEscape = true := by
    rw [scan_hasEscape]; exact h3
  have he : ¬ ((scan value).needsEscape ||
      ((scan value).needsQuotes && (scan value).hasEscape)) = true := by
    simp [hne, hh]
  rw [encodeValue_eq, if_pos hq, if_neg he]
  rfl

/-- The emitted bytes of a valid string: quotes around the byte-wise escaped value when
a rune asks for quotes, the value itself otherwise. -/
theorem encodeValue_of_valid (value : GoString) (hv : ValidString value = true) :
    encodeValue value =
      if (∃ c ∈ runes value, c = 0x22 ∨ c = 0x3D ∨ c ≤ 0x20) then
        [0x22] ++ escapeBytes value ++ [0x22]
      else value := by
  by_cases hq : ∃ c ∈ runes value, c = 0x22 ∨ c = 0x3D ∨ c ≤ 0x20
  · rw [if_pos hq]
    by_cases he : (∃ c ∈ runes value, c = 0x22 ∨ c = 0x3D) ∨
        ((∃ c ∈ runes value, c ≤ 0x20) ∧ 0x5C ∈ runes value)
    · rw [encodeValue_escaped value he, escapeRunes_of_valid value hv]
    · have h1 : 0x22 ∉ runes value := fun hm => he (Or.inl ⟨_, hm, Or.inl rfl⟩)
      have h2 : 0x3D ∉ runes value := fun hm => he (Or.inl ⟨_, hm, Or.inr rfl⟩)
      have hs : ∃ c ∈ runes value, c ≤ 0x20 := by
        obtain ⟨c, hc, h | h | h⟩ := hq
        · exact absurd (h ▸ hc) h1
        · exact absurd (h ▸ hc) h2
        · exact ⟨c, hc, h⟩
      have h3 : 0x5C ∉ runes value := fun hm => he (Or.inr ⟨hs, hm⟩)
      rw [encodeValue_verbatim value hs h1 h2 h3, escapeBytes_eq_self]
      intro b hb hbad
      rcases hbad with rfl | rfl
      · exact h3 ((mem_runes_ascii _ (by omega) value).mpr hb)
      · exact h1 ((mem_runes_ascii _ (by omega) value).mpr hb)
  · rw [if_neg hq, encodeValue_plain value hq]

/-- On valid strings the encoding of values is injective. -/
theorem encodeValue_injective_of_valid (v1 v2 : GoString) (h1 : ValidString v1 = true)
    (h2 : ValidString v2 = true) (h : encodeValue v1 = encodeValue v2) : v1 = v2 := by
  rw [encodeValue_of_valid v1 h1, encodeValue_of_valid v2 h2] at h
  have plain : ∀ v : GoString, (¬ ∃ c ∈ runes v, c = 0x22 ∨ c = 0x3D ∨ c ≤ 0x20) →
      ∀ body : GoString, v ≠ [0x22] ++ body ++ [0x22] := by
    intro v hv body heq
    apply hv
    refine ⟨0x22, (mem_runes_ascii _ (by omega) v).mpr ?_, Or.inl rfl⟩
    rw [heq]; simp
  by_cases q1 : ∃ c ∈ runes v1, c = 0x22 ∨ c = 0x3D ∨ c ≤ 0x20 <;>
    by_cases q2 : ∃ c ∈ runes v2, c = 0x22 ∨ c = 0x3D ∨ c ≤ 0x20
  · rw [if_pos q1, if_pos q2] at h
    simp only [List.cons_append, List.nil_append, List.cons.injEq, true_and] at h
    exact escapeBytes_injective v1 v2 (List.append_cancel_right h)
  · rw [if_pos q1, if_neg q2] at h
    exact absurd h.symm (plain v2 q2 _)
  · rw [if_neg q1, if_pos q2] at h
    exact absurd h (plain v1 q1 _)
  · rw [if_neg q1, if_neg q2] at h
    exact h

/-! ## Claims on `writeValueString` -/

/-- C1. On a writer without error, `writeValueString` wraps the value in double quotes
exactly when the value contains a double quote, an equals sign or a character with code
point at most `0x20`; when it contains none of these the writer receives the value
itself, byte for byte, with no quotes and no escaping.  Such a character is among the
runes of the value exactly when its byte is in the string. -/
theorem writeValueString_quotes_iff (w : Writer) (value : GoString) (hw : w.err = none) :
    ((∃ c ∈ runes value, c = 0x22 ∨ c = 0x3D ∨ c ≤ 0x20) ↔
      ∃ body, writeValueString w value =
        (⟨w.out ++ ([0x22] ++ body ++ [0x22]), none⟩, none)) ∧
    ((¬ ∃ c ∈ runes value, c = 0x22 ∨ c = 0x3D ∨ c ≤ 0x20) →
      writeValueString w value = (⟨w.out ++ value, none⟩, none)) ∧
    ((∃ c ∈ runes value, c = 0x22 ∨ c = 0x3D ∨ c ≤ 0x20) ↔
      ∃ b ∈ value, b = 0x22 ∨ b = 0x3D ∨ b ≤ 0x20) := by
  have hplain : (¬ ∃ c ∈ runes value, c = 0x22 ∨ c = 0x3D ∨ c ≤ 0x20) →
      writeValueString w value = (⟨w.out ++ value, none⟩, none) := by
    intro h
    rw [writer_eta w hw, writeValueString_ok, encodeValue_plain value h]
  refine ⟨⟨?_, ?_⟩, hplain, ?_⟩
  · intro h
    have hq : (scan value).needsQuotes = true := (scan_needsQuotes value).mpr h
    refine ⟨if ((scan value).needsEscape ||
        ((scan value).needsQuotes && (scan value).hasEscape)) = true
      then escapeRunes (runes value) else value, ?_⟩
    rw [writer_eta w hw, writeValueString_ok, encodeValue_eq, if_pos hq]
    rfl
  · rintro ⟨body, hbody⟩
    by_contra h
    rw [hplain h] at hbody
    simp only [Prod.mk.injEq, Writer.mk.injEq, and_true] at hbody
    have hv : value = [0x22] ++ body ++ [0x22] := List.append_cancel_left hbody
    apply h
    refine ⟨0x22, (mem_runes_ascii _ (by omega) value).mpr ?_, Or.inl rfl⟩
    rw [hv]; simp
  · exact exists_rune_iff_exists_byte value _ (fun x hx => by omega)

/-- C1 at the value `C:\path`: a backslash alone asks for no quotes. -/
theorem writeValueString_quotes_iff_witness :
    writeValueString ⟨str "key=", none⟩ (str "C:\\path") =
      (⟨str "key=C:\\path", none⟩, none) :=
  (writeValueString_quotes_iff ⟨str "key=", none⟩ (str "C:\\path") rfl).2.1 (by decide)

/-- C2 as stated fails at the two-byte string `\xff=`: it contains an equals sign, and
`writeValueString` emits the bytes `22 EF BF BD 3D 22`, the invalid byte written as the
replacement character, and not `22 FF 3D 22`, the value with its other bytes unchanged
between quotes. -/
theorem writeValueString_escapes_counterexample :
    (0x3D : Nat) ∈ ([0xFF, 0x3D] : GoString) ∧
    writeValueString ⟨[], none⟩ [0xFF, 0x3D] =
      (⟨[0x22, 0xEF, 0xBF, 0xBD, 0x3D, 0x22], none⟩, none) ∧
    [0x22] ++ escapeBytes [0xFF, 0x3D] ++ [0x22] = [0x22, 0xFF, 0x3D, 0x22] ∧
    writeValueString ⟨[], none⟩ [0xFF, 0x3D] ≠
      (⟨[0x22] ++ escapeBytes [0xFF, 0x3D] ++ [0x22], none⟩, none) := by
  decide

/-- C2, amended.  For a value that is valid UTF-8 and contains a double quote or an
equals sign, on a writer without error, `writeValueString` emits a double quote, then
the value with every backslash and every double quote preceded by one added backslash
and every other byte unchanged, then a closing double quote. -/
theorem writeValueString_escapes (w : Writer) (value : GoString) (hw : w.err = none)
    (hv : ValidString value = true) (h : 0x22 ∈ value ∨ 0x3D ∈ value) :
    writeValueString w value =
      (⟨w.out ++ ([0x22] ++ escapeBytes value ++ [0x22]), none⟩, none) := by
  rw [writer_eta w hw, writeValueString_ok, encodeValue_escaped value,
    escapeRunes_of_valid value hv]
  rcases h with h | h
  · exact Or.inl ⟨_, (mem_runes_ascii _ (by omega) value).mpr h, Or.inl rfl⟩
  · exact Or.inl ⟨_, (mem_runes_ascii _ (by omega) value).mpr h, Or.inr rfl⟩

/-- C2, amended, at the value `a="b"`, emitted as `"a=\"b\""`. -/
theorem writeValueString_escapes_witness :
    writeValueString ⟨[], none⟩ (str "a=\"b\"") =
      (⟨[] ++ ([0x22] ++ escapeBytes (str "a=\"b\"") ++ [0x22]), none⟩, none) ∧
    [] ++ ([0x22] ++ escapeBytes (str "a=\"b\"") ++ [0x22]) = str "\"a=\\\"b\\\"\"" :=
  ⟨writeValueString_escapes ⟨[], none⟩ (str "a=\"b\"") rfl (by decide) (by decide),
    by decide⟩

/-- C3 as stated fails at the value `a b\c`: it contains a space, no double quote and
no equals sign, yet it is emitted as `"a b\\c"`, with the backslash doubled, and not as
the value between quote marks. -/
theorem writeValueString_verbatim_counterexample :
    (∃ c ∈ runes (str "a b\\c"), c ≤ 0x20) ∧
    0x22 ∉ runes (str "a b\\c") ∧ 0x3D ∉ runes (str "a b\\c") ∧
    writeValueString ⟨[], none⟩ (str "a b\\c") = (⟨str "\"a b\\\\c\"", none⟩, none) ∧
    writeValueString ⟨[], none⟩ (str "a b\\c") ≠
      (⟨[0x22] ++ str "a b\\c" ++ [0x22], none⟩, none) := by
  decide

/-- C3, amended.  For a value that contains a character with code point at most `0x20`
and no double quote, no equals sign and no backslash, on a writer without error,
`writeValueString` emits the value verbatim between quote marks. -/
theorem writeValueString_verbatim (w : Writer) (value : GoString) (hw : w.err = none)
    (hs : ∃ c ∈ runes value, c ≤ 0x20) (h1 : 0x22 ∉ runes value) (h2 : 0x3D ∉ runes value)
    (h3 : 0x5C ∉ runes value) :
    writeValueString w value = (⟨w.out ++ ([0x22] ++ value ++ [0x22]), none⟩, none) := by
  rw [writer_eta w hw, writeValueString_ok, encodeValue_verbatim value hs h1 h2 h3]

/-- C3, amended, at the value `hello world`. -/
theorem writeValueString_verbatim_witness :
    writeValueString ⟨str "key=", none⟩ (str "hello world") =
      (⟨str "key=" ++ ([0x22] ++ str "hello world" ++ [0x22]), none⟩, none) :=
  writeValueString_verbatim ⟨str "key=", none⟩ (str "hello world") rfl (by decide)
    (by decide) (by decide) (by decide)

/-- C4 as stated fails: the two-byte strings `\xff=` and `\xfe=` differ, and
`writeValueString` emits the same bytes for both, the replacement character between
quotes, because the escaping loop writes the runes of the value and an invalid byte
decodes to `RuneError`. -/
theorem encodeValue_lossless_counterexample :
    ([0xFF, 0x3D] : GoString) ≠ [0xFE, 0x3D] ∧
    writeValueString ⟨[], none⟩ [0xFF, 0x3D] = (⟨[0x22, 0xEF, 0xBF, 0xBD, 0x3D, 0x22], none⟩, none) ∧
    writeValueString ⟨[], none⟩ [0xFE, 0x3D] = (⟨[0x22, 0xEF, 0xBF, 0xBD, 0x3D, 0x22], none⟩, none) := by
  decide

/-- C4, amended.  On values that are valid UTF-8 the encoding is lossless: two valid
values for which `writeValueString` emits the same bytes are equal. -/
theorem encodeValue_lossless (v1 v2 : GoString) (h1 : ValidString v1 = true)
    (h2 : ValidString v2 = true)
    (h : (writeValueString ⟨[], none⟩ v1).1.out = (writeValueString ⟨[], none⟩ v2).1.out) :
    v1 = v2 :=
  encodeValue_injective_of_valid v1 v2 h1 h2 h

/-- C4, amended, at the value `a b\c`. -/
theorem encodeValue_lossless_witness :
    ValidString (str "a b\\c") = true ∧ str "a b\\c" = [0x61, 0x20, 0x62, 0x5C, 0x63] :=
  ⟨by decide, encodeValue_lossless (str "a b\\c") [0x61, 0x20, 0x62, 0x5C, 0x63]
    (by decide) (by decide) (by decide)⟩

/-! ## `writeProperty` and `Logfmt` in closed form -/

theorem encodeRune_space : encodeRune 0x20 = [0x20] := by decide

theorem encodeRune_equals : encodeRune 0x3D = [0x3D] := by decide

/-- On a writer without error, `writeProperty` appends a space, the key, an equals sign
and the rendered value. -/
theorem writeProperty_ok (out key : GoString) (value : Value) :
    writeProperty ⟨out, none⟩ key value =
      (⟨out ++ ([0x20] ++ key ++ [0x3D] ++ renderValue value), none⟩, none) := by
  cases value with
  | other asError asStringer printed =>
    rcases asError with _ | e <;> rcases asStringer with _ | t <;>
      simp [writeProperty, WriteRune_ok, WriteString_ok, writeValueString_ok, renderValue,
        encodeRune_space, encodeRune_equals]
  | _ =>
    simp [writeProperty, WriteRune_ok, WriteString_ok, Fprint, writeValueString_ok,
      renderValue, encodeRune_space, encodeRune_equals]

theorem encodeProperty_eq (key : GoString) (value : Value) :
    encodeProperty key value = [0x20] ++ key ++ [0x3D] ++ renderValue value := by
  rw [encodeProperty, writeProperty_ok]; rfl

theorem foldl_writeProperty (ps : List Parameter) :
    ∀ out : GoString,
      ps.foldl (fun w p => (writeProperty w p.Name p.Value).1) ⟨out, none⟩ =
        ⟨out ++ ps.flatMap (fun p => [0x20] ++ p.Name ++ [0x3D] ++ renderValue p.Value),
          none⟩ := by
  induction ps with
  | nil => intro out; simp
  | cons p ps ih =>
    intro out
    rw [List.foldl_cons, writeProperty_ok, ih]
    simp

/-- The fields of a log line through the context parameters. -/
theorem Logfmt_eq (windows : Bool) (m : Message) (sink : GoString) :
    m.Logfmt windows sink =
      sink ++ (m.Timestamp.formatLogfmt ++ [0x20] ++ Level.String m.Level
        ++ (str " msg=" ++ encodeValue m.Text)
        ++ (match m.Err with
            | some e => str " error=" ++ encodeValue e.text
            | none => [])
        ++ m.Parameters.flatMap (fun p => [0x20] ++ p.Name ++ [0x3D] ++ renderValue p.Value)
        ++ m.Context.flatMap (fun p => [0x20] ++ p.Name ++ [0x3D] ++ renderValue p.Value)
        ++ (if m.errorCode = [] then [] else str " code=" ++ encodeValue m.errorCode)
        ++ (if m.statusCode = 0 then [] else str " status=" ++ formatInt m.statusCode)
        ++ eol windows) := by
  have e1 : str " msg=" = [0x20] ++ str "msg" ++ [0x3D] := by decide
  have e2 : str " error=" = [0x20] ++ str "error" ++ [0x3D] := by decide
  have e3 : str " code=" = [0x20] ++ str "code" ++ [0x3D] := by decide
  have e4 : str " status=" = [0x20] ++ str "status" ++ [0x3D] := by decide
  rw [e1, e2, e3, e4]
  unfold Message.Logfmt
  rcases m with ⟨ts, lvl, text, err, params, ctx, code, status⟩
  rcases err with _ | e <;> by_cases hc : code = [] <;> by_cases hs : status = 0 <;>
    simp [WriteRune_ok, WriteString_ok, writeProperty_ok, foldl_writeProperty, renderValue,
      encodeRune_space, hc, hs]

/-! ## Claims on `Logfmt` -/

/-- C5. `Logfmt` emits, in this order: the rendered timestamp, a space, `Level.String()`,
the field ` msg=<text>`, the field ` error=<err text>` exactly when an error is
attached, one ` name=value` field for every entry of `Parameters` in list order, one for
every entry of `Context` in list order, the code field, the status field (each when
set), and the line terminator once at the end.  For a message at level error with an
attached error, parameters `a=1`, `b=2`, context `c=3`, error code `E1` and status code
`404` the line is `<ts> error msg=<text> error=<errtext> a=1 b=2 c=3 code=E1 status=404`. -/
theorem Logfmt_field_order (windows : Bool) (m : Message) (sink : GoString) :
    m.Logfmt windows sink =
      sink ++ (m.Timestamp.formatLogfmt ++ [0x20] ++ Level.String m.Level
        ++ (str " msg=" ++ encodeValue m.Text)
        ++ (match m.Err with
            | some e => str " error=" ++ encodeValue e.text
            | none => [])
        ++ m.Parameters.flatMap (fun p => [0x20] ++ p.Name ++ [0x3D] ++ renderValue p.Value)
        ++ m.Context.flatMap (fun p => [0x20] ++ p.Name ++ [0x3D] ++ renderValue p.Value)
        ++ (if m.errorCode = [] then [] else str " code=" ++ encodeValue m.errorCode)
        ++ (if m.statusCode = 0 then [] else str " status=" ++ formatInt m.statusCode)
        ++ eol windows) ∧
    ∀ (ts : Time) (text errtext : GoString),
      Message.Logfmt false
          { Timestamp := ts, Level := LevelError, Text := text, Err := some ⟨errtext⟩,
            Parameters := [⟨str "a", .int 1⟩, ⟨str "b", .int 2⟩],
            Context := [⟨str "c", .int 3⟩], errorCode := str "E1", statusCode := 404 } [] =
        ts.formatLogfmt ++ str " error" ++ str " msg=" ++ encodeValue text
          ++ str " error=" ++ encodeValue errtext
          ++ str " a=1 b=2 c=3 code=E1 status=404" ++ str "\n" := by
  refine ⟨Logfmt_eq windows m sink, ?_⟩
  intro ts text errtext
  rw [Logfmt_eq]
  have e1 : [0x20] ++ Level.String LevelError = str " error" := by decide
  have e2 : ([⟨str "a", .int 1⟩, ⟨str "b", .int 2⟩] : List Parameter).flatMap
      (fun p => [0x20] ++ p.Name ++ [0x3D] ++ renderValue p.Value) = str " a=1 b=2" := by
    decide
  have e3 : ([⟨str "c", .int 3⟩] : List Parameter).flatMap
      (fun p => [0x20] ++ p.Name ++ [0x3D] ++ renderValue p.Value) = str " c=3" := by
    decide
  have e4 : (if str "E1" = [] then [] else str " code=" ++ encodeValue (str "E1"))
      = str " code=E1" := by decide
  have e5 : (if (404 : Int) = 0 then [] else str " status=" ++ formatInt 404)
      = str " status=404" := by decide
  have e6 : eol false = str "\n" := by decide
  have e7 : str " a=1 b=2 c=3 code=E1 status=404"
      = str " a=1 b=2" ++ (str " c=3" ++ (str " code=E1" ++ str " status=404")) := by decide
  rw [e2, e3, e4, e5, e6, e7, ← e1]
  simp only [List.nil_append, List.append_assoc]

/-- C6. The line `Logfmt` emits is the line of the same message with no error code and
no status code, with two fields put in before the line terminator: the code field,
which is ` code=<code>` when the error code is a non-empty string and nothing at all
when it is empty, then the status field, which is ` status=<status>` when the status
code is a non-zero integer and nothing at all when it is zero. -/
theorem Logfmt_code_status (windows : Bool) (m : Message) (sink : GoString) :
    ∃ head : GoString,
      Message.Logfmt windows { m with errorCode := [], statusCode := 0 } sink =
        sink ++ (head ++ eol windows) ∧
      m.Logfmt windows sink =
        sink ++ (head
          ++ (if m.errorCode = [] then [] else str " code=" ++ encodeValue m.errorCode)
          ++ (if m.statusCode = 0 then [] else str " status=" ++ formatInt m.statusCode)
          ++ eol windows) := by
  refine ⟨m.Timestamp.formatLogfmt ++ [0x20] ++ Level.String m.Level
        ++ (str " msg=" ++ encodeValue m.Text)
        ++ (match m.Err with
            | some e => str " error=" ++ encodeValue e.text
            | none => [])
        ++ m.Parameters.flatMap (fun p => [0x20] ++ p.Name ++ [0x3D] ++ renderValue p.Value)
        ++ m.Context.flatMap (fun p => [0x20] ++ p.Name ++ [0x3D] ++ renderValue p.Value),
    ?_, Logfmt_eq windows m sink⟩
  rw [Logfmt_eq]
  rcases m with ⟨ts, lvl, text, err, params, ctx, code, status⟩
  rcases err with _ | e <;> simp

/-! ## Levels -/

/-- On a string of ASCII bytes `strings.ToLower` replaces `A`–`Z` by `a`–`z` and keeps
every other byte, whatever the table of `unicode.ToLower` above ASCII. -/
theorem ToLower_ascii (lib : Stdlib) (s : GoString) (h : ∀ c ∈ s, c < 0x80) :
    ToLower lib s = s.map (fun c => if 0x41 ≤ c ∧ c ≤ 0x5A then c + 0x20 else c) := by
  have hall : s.all (fun c => decide (c < 0x80)) = true := by
    rw [List.all_eq_true]
    intro c hc
    exact decide_eq_true (h c hc)
  unfold ToLower
  simp only [hall, if_true]
  by_cases hu : s.any (fun c => decide (0x41 ≤ c ∧ c ≤ 0x5A)) = true
  · simp only [hu, Bool.not_true, Bool.false_eq_true, if_false]
  · simp only [hu, Bool.not_false, if_true]
    have hno : ∀ c ∈ s, ¬ (0x41 ≤ c ∧ c ≤ 0x5A) := by
      intro c hc hcc
      apply hu
      rw [List.any_eq_true]
      exact ⟨c, hc, decide_eq_true hcc⟩
    symm
    calc s.map (fun c => if 0x41 ≤ c ∧ c ≤ 0x5A then c + 0x20 else c)
        = s.map id := List.map_congr_left (fun c hc => by simp [hno c hc])
      _ = s := List.map_id s

/-- The outcome of `UnmarshalJSON` on data that decodes to `text`, by the lower-case
form of the text. -/
theorem UnmarshalJSON_of_text (lib : Stdlib) (s : Level) (data text : GoString)
    (hdec : lib.unmarshalString data = some text) :
    Level.UnmarshalJSON lib s data =
      if ToLower lib text = str "debug" then (LevelDebug, none)
      else if ToLower lib text = str "info" then (LevelInfo, none)
      else if ToLower lib text = str "warn" ∨ ToLower lib text = str "warning" then
        (LevelWarning, none)
      else if ToLower lib text = str "error" then (LevelError, none)
      else (s, some errInvalidLevel) := by
  simp only [Level.UnmarshalJSON, hdec]

/-- C7. For every text that is one of `debug`, `info`, `warn`, `warning`, `error` once
letter case is ignored (its lower-case form, `strings.ToLower`, is that spelling),
`UnmarshalJSON` succeeds on data that decodes to the text, and `String` and
`MarshalJSON` of the decoded level give the canonical lower-case short form: `debug`,
`info`, `warn`, `warn` and `error` respectively. -/
theorem UnmarshalJSON_then_String (lib : Stdlib) (s : Level) (data text canon : GoString)
    (hdec : lib.unmarshalString data = some text)
    (hcase : (ToLower lib text, canon) ∈
      [(str "debug", str "debug"), (str "info", str "info"), (str "warn", str "warn"),
        (str "warning", str "warn"), (str "error", str "error")]) :
    (Level.UnmarshalJSON lib s data).2 = none ∧
    Level.String (Level.UnmarshalJSON lib s data).1 = canon ∧
    Level.MarshalJSON lib (Level.UnmarshalJSON lib s data).1 =
      (lib.marshalString canon, none) := by
  rw [UnmarshalJSON_of_text lib s data text hdec]
  simp only [List.mem_cons, List.mem_nil_iff, or_false, Prod.mk.injEq] at hcase
  have d1 : str "info" ≠ str "debug" := by decide
  have d2 : str "warn" ≠ str "debug" := by decide
  have d3 : str "warn" ≠ str "info" := by decide
  have d4 : str "warning" ≠ str "debug" := by decide
  have d5 : str "warning" ≠ str "info" := by decide
  have d6 : str "error" ≠ str "debug" := by decide
  have d7 : str "error" ≠ str "info" := by decide
  have d8 : str "error" ≠ str "warn" := by decide
  have d9 : str "error" ≠ str "warning" := by decide
  have s1 : Level.String LevelDebug = str "debug" := by decide
  have s2 : Level.String LevelInfo = str "info" := by decide
  have s3 : Level.String LevelWarning = str "warn" := by decide
  have s4 : Level.String LevelError = str "error" := by decide
  rcases hcase with ⟨h, rfl⟩ | ⟨h, rfl⟩ | ⟨h, rfl⟩ | ⟨h, rfl⟩ | ⟨h, rfl⟩ <;>
    simp [h, d1, d2, d3, d4, d5, d6, d7, d8, d9, s1, s2, s3, s4, Level.MarshalJSON]

/-- C7 at the text `WaRnInG`, which decodes to the level whose text is `warn`. -/
theorem UnmarshalJSON_then_String_witness :
    (Level.UnmarshalJSON plainLib LevelDebug (str "\"WaRnInG\"")).2 = none ∧
    Level.String (Level.UnmarshalJSON plainLib LevelDebug (str "\"WaRnInG\"")).1
      = str "warn" ∧
    Level.MarshalJSON plainLib (Level.UnmarshalJSON plainLib LevelDebug (str "\"WaRnInG\"")).1
      = (plainLib.marshalString (str "warn"), none) :=
  UnmarshalJSON_then_String plainLib LevelDebug (str "\"WaRnInG\"") (str "WaRnInG")
    (str "warn") (by decide) (by decide)

/-- C8. When `json.Unmarshal` reads back what `json.Marshal` writes for the four level
names, decoding the encoding of a level among Debug, Info, Warning and Error gives the
level back: `MarshalJSON` returns no error and `UnmarshalJSON` on its output succeeds
and sets the receiver to the level. -/
theorem MarshalJSON_then_UnmarshalJSON (lib : Stdlib)
    (hlib : ∀ name ∈ [str "debug", str "info", str "warn", str "error"],
      lib.unmarshalString (lib.marshalString name) = some name)
    (L : Level) (hL : L ∈ [LevelDebug, LevelInfo, LevelWarning, LevelError]) (s : Level) :
    (Level.MarshalJSON lib L).2 = none ∧
    Level.UnmarshalJSON lib s (Level.MarshalJSON lib L).1 = (L, none) := by
  refine ⟨rfl, ?_⟩
  have s1 : Level.String LevelDebug = str "debug" := by decide
  have s2 : Level.String LevelInfo = str "info" := by decide
  have s3 : Level.String LevelWarning = str "warn" := by decide
  have s4 : Level.String LevelError = str "error" := by decide
  have l1 : ToLower lib (str "debug") = str "debug" := by
    rw [ToLower_ascii lib _ (by decide)]; decide
  have l2 : ToLower lib (str "info") = str "info" := by
    rw [ToLower_ascii lib _ (by decide)]; decide
  have l3 : ToLower lib (str "warn") = str "warn" := by
    rw [ToLower_ascii lib _ (by decide)]; decide
  have l4 : ToLower lib (str "error") = str "error" := by
    rw [ToLower_ascii lib _ (by decide)]; decide
  have d1 : str "info" ≠ str "debug" := by decide
  have d2 : str "warn" ≠ str "debug" := by decide
  have d3 : str "warn" ≠ str "info" := by decide
  have d6 : str "error" ≠ str "debug" := by decide
  have d7 : str "error" ≠ str "info" := by decide
  have d8 : str "error" ≠ str "warn" := by decide
  have d9 : str "error" ≠ str "warning" := by decide
  simp only [List.mem_cons, List.mem_nil_iff, or_false] at hL
  rcases hL with rfl | rfl | rfl | rfl
  · rw [Level.MarshalJSON, s1,
      UnmarshalJSON_of_text lib s _ _ (hlib _ (by simp)), l1]
    simp
  · rw [Level.MarshalJSON, s2,
      UnmarshalJSON_of_text lib s _ _ (hlib _ (by simp)), l2]
    simp [d1]
  · rw [Level.MarshalJSON, s3,
      UnmarshalJSON_of_text lib s _ _ (hlib _ (by simp)), l3]
    simp [d2, d3]
  · rw [Level.MarshalJSON, s4,
      UnmarshalJSON_of_text lib s _ _ (hlib _ (by simp)), l4]
    simp [d6, d7, d8, d9]

/-- C8 at the level Warning, with a receiver that held Debug. -/
theorem MarshalJSON_then_UnmarshalJSON_witness :
    (Level.MarshalJSON plainLib LevelWarning).1 = str "\"warn\"" ∧
    Level.UnmarshalJSON plainLib LevelDebug (Level.MarshalJSON plainLib LevelWarning).1
      = (LevelWarning, none) :=
  ⟨by decide,
    (MarshalJSON_then_UnmarshalJSON plainLib (by decide) LevelWarning (by decide)
      LevelDebug).2⟩

/-- C9. When the data does not decode to a string, or decodes to a text that is none of
`debug`, `info`, `warn`, `warning`, `error` once letter case is ignored (its lower-case
form, `strings.ToLower`, is none of them), `UnmarshalJSON` returns `errInvalidLevel` and
leaves the receiver as it was. -/
theorem UnmarshalJSON_invalid (lib : Stdlib) (s : Level) (data : GoString)
    (h : ∀ text, lib.unmarshalString data = some text →
      ToLower lib text ∉ [str "debug", str "info", str "warn", str "warning", str "error"]) :
    Level.UnmarshalJSON lib s data = (s, some errInvalidLevel) := by
  cases hdec : lib.unmarshalString data with
  | none => simp only [Level.UnmarshalJSON, hdec]
  | some text =>
    have hno := h text hdec
    simp only [List.mem_cons, List.mem_nil_iff, or_false, not_or] at hno
    rw [UnmarshalJSON_of_text lib s data text hdec]
    simp [hno.1, hno.2.1, hno.2.2.1, hno.2.2.2.1, hno.2.2.2.2]

/-- C9 at the empty string: the receiver keeps the level it held. -/
theorem UnmarshalJSON_invalid_witness :
    plainLib.unmarshalString (str "\"\"") = some [] ∧
    Level.UnmarshalJSON plainLib LevelWarning (str "\"\"")
      = (LevelWarning, some errInvalidLevel) :=
  ⟨by decide,
    UnmarshalJSON_invalid plainLib LevelWarning (str "\"\"") (fun text ht => by
      have e : plainLib.unmarshalString (str "\"\"") = some [] := by decide
      rw [e] at ht
      cases ht
      decide)⟩

/-! ## The emit pipeline -/

/-- C10. For a message whose level is below `MinLevel`, `doPrint` leaves the world as
it was: nothing is written to the primary sink and no call of `Handle` is made,
whatever the `Print` hook and the registered handlers. -/
theorem doPrint_below_MinLevel (g : Globals) (m : Message) (world : World)
    (h : m.Level < g.MinLevel) : doPrint g m world = world := by
  unfold doPrint
  cases g.Print with
  | none => rfl
  | some print => simp only [ge_iff_le, if_neg (not_le.mpr h)]

/-- C10 with `MinLevel = LevelInfo`, the default `Print`, one registered handler and a
message at level Debug. -/
theorem doPrint_below_MinLevel_witness :
    doPrint
        { MinLevel := LevelInfo, Print := some (defaultPrint false),
          handlers := [⟨7, fun _ => none⟩] }
        { Timestamp := ⟨str "2016-01-02T15:04:05.000000+0000"⟩, Level := LevelDebug,
          Text := str "starting", Err := none, Parameters := [], Context := [],
          errorCode := [], statusCode := 0 }
        ⟨[], []⟩ = ⟨[], []⟩ :=
  doPrint_below_MinLevel _ _ _ (by decide)

/-! ## Dispatch to the handlers -/

theorem foldl_handle (m : Message) (hs : List Handler) :
    ∀ world : World,
      hs.foldl
          (fun wd h =>
            let _ := h.Handle m
            { wd with handled := wd.handled ++ [(h.tag, m)] })
          world =
        { world with handled := world.handled ++ hs.map (fun h => (h.tag, m)) } := by
  induction hs with
  | nil => intro world; simp
  | cons h hs ih =>
    intro world
    rw [List.foldl_cons, ih]
    simp

/-- What `doPrint` does when the hook is set and the level passes the threshold. -/
theorem doPrint_of_pass (g : Globals) (m : Message) (world : World)
    (print : Message → World → World) (hp : g.Print = some print)
    (hl : g.MinLevel ≤ m.Level) :
    doPrint g m world =
      { stdout := (print m world).stdout,
        handled := (print m world).handled ++ g.handlers.map (fun h => (h.tag, m)) } := by
  unfold doPrint
  rw [hp]
  simp only [ge_iff_le, if_pos hl]
  rw [foldl_handle]

/-- What `doPrint` does when the hook is nil or the level is below the threshold. -/
theorem doPrint_of_block (g : Globals) (m : Message) (world : World)
    (h : g.Print = none ∨ m.Level < g.MinLevel) : doPrint g m world = world := by
  unfold doPrint
  cases hp : g.Print with
  | none => rfl
  | some print =>
    rcases h with h | h
    · rw [hp] at h; cases h
    · simp only [ge_iff_le, if_neg (not_le.mpr h)]

/-- C11 as stated fails when the `Print` hook is nil: with one registered handler and
a message at level Error, above `MinLevel = LevelInfo`, `doPrint` writes nothing and
calls no handler. -/
theorem doPrint_dispatch_counterexample :
    LevelInfo ≤ LevelError ∧
    doPrint { MinLevel := LevelInfo, Print := none, handlers := [⟨1, fun _ => none⟩] }
        { Timestamp := ⟨str "2016-01-02T15:04:05.000000+0000"⟩, Level := LevelError,
          Text := str "failed", Err := none, Parameters := [], Context := [],
          errorCode := [], statusCode := 0 }
        ⟨[], []⟩ = ⟨[], []⟩ :=
  ⟨by decide, rfl⟩

/-- C11, amended.  When the `Print` hook is not nil, for every message whose level is
at least `MinLevel` and every list of registered handlers, `doPrint` first calls `Print`
with the message and then calls `Handle` of every registered handler once with that
message, in registration order, whatever errors the handlers return; with the initial
`Print` the first step writes the logfmt line of the message to standard output. -/
theorem doPrint_dispatch (g : Globals) (m : Message) (world : World)
    (print : Message → World → World) (hp : g.Print = some print)
    (hl : g.MinLevel ≤ m.Level) :
    doPrint g m world =
      { stdout := (print m world).stdout,
        handled := (print m world).handled ++ g.handlers.map (fun h => (h.tag, m)) } ∧
    ∀ windows : Bool,
      doPrint { g with Print := some (defaultPrint windows) } m world =
        { stdout := m.Logfmt windows world.stdout,
          handled := world.handled ++ g.handlers.map (fun h => (h.tag, m)) } :=
  ⟨doPrint_of_pass g m world print hp hl,
    fun windows => doPrint_of_pass _ m world (defaultPrint windows) rfl hl⟩

/-- C11, amended, with three handlers of which the second fails: each is called once,
in registration order. -/
theorem doPrint_dispatch_witness :
    (doPrint
        { MinLevel := LevelInfo, Print := some (defaultPrint false),
          handlers := [⟨1, fun _ => none⟩, ⟨2, fun _ => some ⟨str "down"⟩⟩,
            ⟨3, fun _ => none⟩] }
        (newMessage ⟨str "2016-01-02T15:04:05.000000+0000"⟩ LevelInfo (str "ready"))
        ⟨[], []⟩).handled =
      [(1, newMessage ⟨str "2016-01-02T15:04:05.000000+0000"⟩ LevelInfo (str "ready")),
        (2, newMessage ⟨str "2016-01-02T15:04:05.000000+0000"⟩ LevelInfo (str "ready")),
        (3, newMessage ⟨str "2016-01-02T15:04:05.000000+0000"⟩ LevelInfo (str "ready"))] := by
  rw [(doPrint_dispatch _ _ _ (defaultPrint false) rfl (by decide)).1]
  rfl

/-- C20. When the `Print` hook is nil, `doPrint` leaves the world as it was, for every
message and every value of `MinLevel`: nothing is written and no handler is called.
Whenever `doPrint` changes the world, and so whenever a handler is called, `Print` is
not nil and the level of the message is at least `MinLevel`. -/
theorem doPrint_nil_Print (g : Globals) (m : Message) (world : World)
    (h : g.Print = none) :
    doPrint g m world = world ∧
    ∀ (g2 : Globals) (m2 : Message) (w2 : World),
      doPrint g2 m2 w2 ≠ w2 → g2.Print ≠ none ∧ g2.MinLevel ≤ m2.Level := by
  refine ⟨doPrint_of_block g m world (Or.inl h), ?_⟩
  intro g2 m2 w2 hne
  constructor
  · intro hp
    exact hne (doPrint_of_block g2 m2 w2 (Or.inl hp))
  · by_contra hl
    exact hne (doPrint_of_block g2 m2 w2 (Or.inr (not_le.mp hl)))

/-- C20 with a nil hook, `MinLevel = LevelDebug`, one registered handler and a message
at level Error. -/
theorem doPrint_nil_Print_witness :
    doPrint { MinLevel := LevelDebug, Print := none, handlers := [⟨1, fun _ => none⟩] }
        (newMessage ⟨str "2016-01-02T15:04:05.000000+0000"⟩ LevelError (str "failed"))
        ⟨str "earlier line\n", []⟩ = ⟨str "earlier line\n", []⟩ :=
  (doPrint_nil_Print _ _ _ rfl).1

/-! ## Options and entry points -/

theorem applyOpts_append (m : Message) (a b : List LogOption) :
    m.applyOpts (a ++ b) = (m.applyOpts a).applyOpts b := by
  simp [Message.applyOpts, List.foldl_append]

/-- C12. Options apply left to right, each on the message left by the ones before it:
`applyOpts` on `a ++ b` is `applyOpts` on `b` after `applyOpts` on `a`; and after two
options of which the second sets the error code to `c2`, the error code is `c2`,
whatever the first one set. -/
theorem applyOpts_left_to_right (m : Message) (a b : List LogOption) (o1 o2 : LogOption)
    (c2 : GoString) (h2 : ∀ msg : Message, (o2 msg).errorCode = c2) :
    m.applyOpts (a ++ b) = (m.applyOpts a).applyOpts b ∧
    (m.applyOpts [o1, o2]).errorCode = c2 :=
  ⟨applyOpts_append m a b, h2 _⟩

/-- C12 with two options that set the error codes `E1` and `E2`. -/
theorem applyOpts_left_to_right_witness :
    ((newMessage ⟨[]⟩ LevelError (str "failed")).applyOpts
      [fun msg => { msg with errorCode := str "E1" },
        fun msg => { msg with errorCode := str "E2" }]).errorCode = str "E2" :=
  (applyOpts_left_to_right (newMessage ⟨[]⟩ LevelError (str "failed")) [] []
    (fun msg => { msg with errorCode := str "E1" })
    (fun msg => { msg with errorCode := str "E2" }) (str "E2") (fun _ => rfl)).2

/-- C13. For each level, the context variant called with `ctx`, `text` and `opts`
builds, emits and returns the same as the plain entry point called with `text` and
`opts` followed by `WithContext(ctx)`, for the same reading of the clock. -/
theorem context_variants (Ctx : Type) (WithContext : Ctx → LogOption) (g : Globals)
    (now : Time) (world : World) (ctx : Ctx) (text : GoString) (opts : List LogOption) :
    DebugC WithContext g now world ctx text opts
      = Debug g now world text (opts ++ [WithContext ctx]) ∧
    InfoC WithContext g now world ctx text opts
      = Info g now world text (opts ++ [WithContext ctx]) ∧
    WarnC WithContext g now world ctx text opts
      = Warn g now world text (opts ++ [WithContext ctx]) ∧
    ErrorC WithContext g now world ctx text opts
      = Error g now world text (opts ++ [WithContext ctx]) := by
  refine ⟨?_, ?_, ?_, ?_⟩
  · simp [DebugC, Debug, applyOpts_append, Message.applyOpts]
  · simp [InfoC, Info, applyOpts_append, Message.applyOpts]
  · simp [WarnC, Warn, applyOpts_append, Message.applyOpts]
  · simp [ErrorC, Error, applyOpts_append, Message.applyOpts]

/-- C14. `ErrorCE` called with `ctx`, `err`, `text` and `opts` builds, emits and returns
the same as `Error` called with `text` and `opts` followed by `WithContext(ctx)` and
then `WithError(err)`, for the same reading of the clock: a message at level Error. -/
theorem ErrorCE_eq_Error (Ctx : Type) (WithContext : Ctx → LogOption)
    (WithError : Option GoError → LogOption) (g : Globals) (now : Time) (world : World)
    (ctx : Ctx) (err : Option GoError) (text : GoString) (opts : List LogOption) :
    ErrorCE WithContext WithError g now world ctx err text opts
      = Error g now world text (opts ++ [WithContext ctx, WithError err]) ∧
    ErrorCE WithContext WithError g now world ctx err text opts
      = (WithError err (WithContext ctx ((newMessage now LevelError text).applyOpts opts)),
          doPrint g
            (WithError err (WithContext ctx ((newMessage now LevelError text).applyOpts opts)))
            world) := by
  constructor
  · simp [ErrorCE, Error, applyOpts_append, Message.applyOpts]
  · rfl

/-- C16. The text of a message as an error, `Error()`, is its `Text`, whatever
timestamp, level, attached error, parameters, context, error code and status code the
message carries. -/
theorem Message_Error_eq_Text (ts : Time) (level : Level) (text : GoString)
    (err : Option GoError) (params ctx : List Parameter) (code : GoString) (status : Int) :
    Message.Error
        { Timestamp := ts, Level := level, Text := text, Err := err, Parameters := params,
          Context := ctx, errorCode := code, statusCode := status } = text :=
  rfl

/-- C17. `AddHandler(h)` leaves the registry equal to the previous list followed by
`h`: every handler registered before is still there at its position, the list is one
longer, and registering a list of handlers one after the other appends that list. -/
theorem AddHandler_appends (g : Globals) (h : Handler) :
    (AddHandler g h).handlers = g.handlers ++ [h] ∧
    (AddHandler g h).handlers.take g.handlers.length = g.handlers ∧
    (AddHandler g h).handlers.length = g.handlers.length + 1 ∧
    ∀ hs : List Handler, (hs.foldl AddHandler g).handlers = g.handlers ++ hs := by
  refine ⟨rfl, by simp [AddHandler], by simp [AddHandler], ?_⟩
  intro hs
  induction hs generalizing g with
  | nil => simp
  | cons x xs ih => rw [List.foldl_cons, ih]; simp [AddHandler]

/-! ## The rendering of a field -/

/-- The rendering of the code is the rendering in priority order, when the text printed
for a floating-point value asks for no quotes. -/
theorem renderValue_eq_renderByPriority (value : Value)
    (hf : ∀ printed, value = .float32 printed ∨ value = .float64 printed →
      ¬ ∃ c ∈ runes printed, c = 0x22 ∨ c = 0x3D ∨ c ≤ 0x20) :
    renderValue value = renderByPriority value := by
  cases value with
  | float32 printed =>
    simp only [renderValue, renderByPriority, Value.naturalText, Value.errorText,
      Value.stringerText, Value.sprint]
    rw [encodeValue_plain printed (hf printed (Or.inl rfl))]
  | float64 printed =>
    simp only [renderValue, renderByPriority, Value.naturalText, Value.errorText,
      Value.stringerText, Value.sprint]
    rw [encodeValue_plain printed (hf printed (Or.inr rfl))]
  | other asError asStringer printed =>
    rcases asError with _ | e <;> rcases asStringer with _ | t <;> rfl
  | _ => rfl

/-- C15. On a writer without error, `writeProperty` emits a space, the name, an equals
sign and the rendered value, which is chosen in this priority order: for a value of a
built-in boolean or integer type its natural text (`true`, `false`, decimal digits) with
no quotes; otherwise for an error its `Error()` text through the string-quoting rule,
also when the value exposes `String()`; otherwise for a value that exposes `String()`
that text through the string-quoting rule; otherwise the generic textual conversion
through the string-quoting rule.  The text printed for a floating-point value is taken
to hold no double quote, no equals sign and no character up to `0x20`. -/
theorem writeProperty_priority (w : Writer) (key : GoString) (value : Value)
    (hw : w.err = none)
    (hf : ∀ printed, value = .float32 printed ∨ value = .float64 printed →
      ¬ ∃ c ∈ runes printed, c = 0x22 ∨ c = 0x3D ∨ c ≤ 0x20) :
    writeProperty w key value =
      (⟨w.out ++ ([0x20] ++ key ++ [0x3D] ++ renderByPriority value), none⟩, none) := by
  rw [writer_eta w hw, writeProperty_ok, renderValue_eq_renderByPriority value hf]

/-- C15 at a value that is an error with the text `disk full` and also exposes
`String()` with the text `E7`: the error text is rendered, between quotes. -/
theorem writeProperty_priority_witness :
    writeProperty ⟨[], none⟩ (str "cause")
        (.other (some (str "disk full")) (some (str "E7")) (str "{7}")) =
      (⟨str " cause=\"disk full\"", none⟩, none) :=
  writeProperty_priority ⟨[], none⟩ (str "cause")
    (.other (some (str "disk full")) (some (str "E7")) (str "{7}")) rfl
    (fun _ h => by rcases h with h | h <;> cases h)

/-! ## Backslashes -/

theorem escapeBytes_eq_doubleBackslashBytes (s : GoString) (h : 0x22 ∉ s) :
    escapeBytes s = doubleBackslashBytes s := by
  induction s with
  | nil => rfl
  | cons c cs ih =>
    have hc : c ≠ 0x22 := fun e => h (e ▸ List.mem_cons_self _ _)
    have hcs : 0x22 ∉ cs := fun hm => h (List.mem_cons_of_mem _ hm)
    rw [escapeBytes_cons, ih hcs]
    simp only [doubleBackslashBytes, List.flatMap_cons]
    by_cases hb : c = 0x5C
    · subst hb
      simp
    · simp [hb, hc]

/-- C18 as stated fails at the three-byte string `\xff \`: it contains a backslash and
a space, no double quote and no equals sign, and `writeValueString` emits the bytes
`22 EF BF BD 20 5C 5C 22`, the invalid byte written as the replacement character, and
not `22 FF 20 5C 5C 22`, the value with its backslash doubled and every other byte
unchanged between quotes. -/
theorem writeValueString_backslash_counterexample :
    (0x5C : Nat) ∈ ([0xFF, 0x20, 0x5C] : GoString) ∧
    (∃ b ∈ ([0xFF, 0x20, 0x5C] : GoString), b ≤ 0x20) ∧
    (0x22 : Nat) ∉ ([0xFF, 0x20, 0x5C] : GoString) ∧
    (0x3D : Nat) ∉ ([0xFF, 0x20, 0x5C] : GoString) ∧
    writeValueString ⟨[], none⟩ [0xFF, 0x20, 0x5C] =
      (⟨[0x22, 0xEF, 0xBF, 0xBD, 0x20, 0x5C, 0x5C, 0x22], none⟩, none) ∧
    [0x22] ++ doubleBackslashBytes [0xFF, 0x20, 0x5C] ++ [0x22]
      = [0x22, 0xFF, 0x20, 0x5C, 0x5C, 0x22] ∧
    writeValueString ⟨[], none⟩ [0xFF, 0x20, 0x5C] ≠
      (⟨[0x22] ++ doubleBackslashBytes [0xFF, 0x20, 0x5C] ++ [0x22], none⟩, none) := by
  decide

/-- C18, amended.  For a value that contains a backslash and no double quote and no
equals sign, on a writer without error: when it holds no character with code point up
to `0x20` the backslash asks for no quotes and the value is written as it is; when it
holds such a character and is valid UTF-8, `writeValueString` emits a double quote, the
value with every backslash doubled and every other byte unchanged, and a closing double
quote. -/
theorem writeValueString_backslash (w : Writer) (value : GoString) (hw : w.err = none)
    (hb : 0x5C ∈ value) (h1 : 0x22 ∉ value) (h2 : 0x3D ∉ value) :
    ((¬ ∃ b ∈ value, b ≤ 0x20) →
      writeValueString w value = (⟨w.out ++ value, none⟩, none)) ∧
    ((∃ b ∈ value, b ≤ 0x20) → ValidString value = true →
      writeValueString w value =
        (⟨w.out ++ ([0x22] ++ doubleBackslashBytes value ++ [0x22]), none⟩, none)) := by
  have r1 : 0x22 ∉ runes value := fun hm => h1 ((mem_runes_ascii _ (by omega) value).mp hm)
  have r2 : 0x3D ∉ runes value := fun hm => h2 ((mem_runes_ascii _ (by omega) value).mp hm)
  have rb : 0x5C ∈ runes value := (mem_runes_ascii _ (by omega) value).mpr hb
  have rs : (∃ c ∈ runes value, c ≤ 0x20) ↔ ∃ b ∈ value, b ≤ 0x20 :=
    exists_rune_iff_exists_byte value _ (fun x hx => by omega)
  refine ⟨?_, ?_⟩
  · intro hs
    rw [writer_eta w hw, writeValueString_ok, encodeValue_plain value]
    rintro ⟨c, hc, rfl | rfl | h⟩
    · exact r1 hc
    · exact r2 hc
    · exact hs (rs.mp ⟨c, hc, h⟩)
  · intro hs hv
    rw [writer_eta w hw, writeValueString_ok,
      encodeValue_escaped value (Or.inr ⟨rs.mpr hs, rb⟩), escapeRunes_of_valid value hv,
      escapeBytes_eq_doubleBackslashBytes value h1]

/-- C18, amended, at the value `a b\c`, emitted as `"a b\\c"`. -/
theorem writeValueString_backslash_witness :
    writeValueString ⟨[], none⟩ (str "a b\\c") =
      (⟨[] ++ ([0x22] ++ doubleBackslashBytes (str "a b\\c") ++ [0x22]), none⟩, none) ∧
    [] ++ ([0x22] ++ doubleBackslashBytes (str "a b\\c") ++ [0x22])
      = str "\"a b\\\\c\"" :=
  ⟨(writeValueString_backslash ⟨[], none⟩ (str "a b\\c") rfl (by decide) (by decide)
      (by decide)).2 (by decide) (by decide), by decide⟩

/-! ## An encoded value inside a line -/

/-- The end of a quoted value: the first double quote that no backslash escapes. -/
theorem escapeBytes_delimited (v1 : GoString) :
    ∀ (v2 s1 s2 : GoString),
      escapeBytes v1 ++ 0x22 :: s1 = escapeBytes v2 ++ 0x22 :: s2 → v1 = v2 ∧ s1 = s2 := by
  induction v1 with
  | nil =>
    intro v2 s1 s2 h
    cases v2 with
    | nil => simpa [escapeBytes] using h
    | cons b t =>
      rw [escapeBytes_cons] at h
      by_cases hb : b = 0x5C ∨ b = 0x22
      · rw [if_pos hb] at h
        simp [escapeBytes] at h
      · rw [if_neg hb] at h
        simp only [escapeBytes, List.flatMap_nil, List.nil_append, List.cons_append,
          List.cons.injEq] at h
        exact absurd (Or.inr h.1.symm) hb
  | cons a t1 ih =>
    intro v2 s1 s2 h
    cases v2 with
    | nil =>
      rw [escapeBytes_cons] at h
      by_cases ha : a = 0x5C ∨ a = 0x22
      · rw [if_pos ha] at h
        simp [escapeBytes] at h
      · rw [if_neg ha] at h
        simp only [escapeBytes, List.flatMap_nil, List.nil_append, List.cons_append,
          List.cons.injEq] at h
        exact absurd (Or.inr h.1) ha
    | cons b t2 =>
      rw [escapeBytes_cons, escapeBytes_cons] at h
      by_cases ha : a = 0x5C ∨ a = 0x22 <;> by_cases hb : b = 0x5C ∨ b = 0x22
      · rw [if_pos ha, if_pos hb] at h
        simp only [List.cons_append, List.nil_append, List.cons.injEq, true_and] at h
        obtain ⟨e1, e2⟩ := ih t2 s1 s2 h.2
        exact ⟨by rw [h.1, e1], e2⟩
      · rw [if_pos ha, if_neg hb] at h
        simp only [List.cons_append, List.nil_append, List.cons.injEq] at h
        exact absurd (Or.inl h.1.symm) hb
      · rw [if_neg ha, if_pos hb] at h
        simp only [List.cons_append, List.nil_append, List.cons.injEq] at h
        exact absurd (Or.inl h.1) ha
      · rw [if_neg ha, if_neg hb] at h
        simp only [List.cons_append, List.nil_append, List.cons.injEq] at h
        obtain ⟨e1, e2⟩ := ih t2 s1 s2 h.2
        exact ⟨by rw [h.1, e1], e2⟩

/-- The end of an unquoted value: the first byte up to `0x20`. -/
theorem plain_delimited (v1 : GoString) :
    ∀ (v2 : GoString) (c1 c2 : Nat) (r1 r2 : GoString),
      (∀ b ∈ v1, 0x20 < b) → (∀ b ∈ v2, 0x20 < b) → c1 ≤ 0x20 → c2 ≤ 0x20 →
      v1 ++ c1 :: r1 = v2 ++ c2 :: r2 → v1 = v2 ∧ c1 :: r1 = c2 :: r2 := by
  induction v1 with
  | nil =>
    intro v2 c1 c2 r1 r2 _ h2 hc1 _ h
    cases v2 with
    | nil => exact ⟨rfl, by simpa using h⟩
    | cons b t =>
      simp only [List.nil_append, List.cons_append, List.cons.injEq] at h
      have := h2 b (List.mem_cons_self _ _)
      omega
  | cons a t1 ih =>
    intro v2 c1 c2 r1 r2 h1 h2 hc1 hc2 h
    cases v2 with
    | nil =>
      simp only [List.nil_append, List.cons_append, List.cons.injEq] at h
      have := h1 a (List.mem_cons_self _ _)
      omega
    | cons b t2 =>
      simp only [List.cons_append, List.cons.injEq] at h
      obtain ⟨e1, e2⟩ := ih t2 c1 c2 r1 r2 (fun x hx => h1 x (List.mem_cons_of_mem _ hx))
        (fun x hx => h2 x (List.mem_cons_of_mem _ hx)) hc1 hc2 h.2
      exact ⟨by rw [h.1, e1], e2⟩

/-- On valid strings an encoded value followed by a space or a line terminator
determines the value and what follows it. -/
theorem encodeValue_delimited_of_valid (v1 v2 s1 s2 : GoString)
    (hv1 : ValidString v1 = true) (hv2 : ValidString v2 = true)
    (hs1 : ∃ c rest, s1 = c :: rest ∧ (c = 0x20 ∨ c = 0x0A ∨ c = 0x0D))
    (hs2 : ∃ c rest, s2 = c :: rest ∧ (c = 0x20 ∨ c = 0x0A ∨ c = 0x0D))
    (h : encodeValue v1 ++ s1 = encodeValue v2 ++ s2) : v1 = v2 ∧ s1 = s2 := by
  obtain ⟨c1, r1, rfl, hc1⟩ := hs1
  obtain ⟨c2, r2, rfl, hc2⟩ := hs2
  rw [encodeValue_of_valid v1 hv1, encodeValue_of_valid v2 hv2] at h
  have bytes : ∀ v : GoString, (¬ ∃ c ∈ runes v, c = 0x22 ∨ c = 0x3D ∨ c ≤ 0x20) →
      ∀ b ∈ v, 0x20 < b ∧ b ≠ 0x22 := by
    intro v hv b hb
    by_contra hcon
    apply hv
    rw [exists_rune_iff_exists_byte v _ (fun x hx => by omega)]
    exact ⟨b, hb, by omega⟩
  have mixed : ∀ (v : GoString) (c : Nat) (r body : GoString),
      (¬ ∃ c ∈ runes v, c = 0x22 ∨ c = 0x3D ∨ c ≤ 0x20) →
      (c = 0x20 ∨ c = 0x0A ∨ c = 0x0D) → v ++ c :: r ≠ 0x22 :: body := by
    intro v c r body hv hc heq
    cases v with
    | nil =>
      simp only [List.nil_append, List.cons.injEq] at heq
      omega
    | cons b t =>
      simp only [List.cons_append, List.cons.injEq] at heq
      exact (bytes _ hv b (List.mem_cons_self _ _)).2 heq.1
  by_cases q1 : ∃ c ∈ runes v1, c = 0x22 ∨ c = 0x3D ∨ c ≤ 0x20 <;>
    by_cases q2 : ∃ c ∈ runes v2, c = 0x22 ∨ c = 0x3D ∨ c ≤ 0x20
  · rw [if_pos q1, if_pos q2] at h
    simp only [List.cons_append, List.nil_append, List.append_assoc, List.cons.injEq,
      true_and] at h
    exact escapeBytes_delimited v1 v2 _ _ h
  · rw [if_pos q1, if_neg q2] at h
    simp only [List.cons_append, List.nil_append, List.append_assoc] at h
    exact absurd h.symm (mixed v2 c2 r2 _ q2 hc2)
  · rw [if_neg q1, if_pos q2] at h
    simp only [List.cons_append, List.nil_append, List.append_assoc] at h
    exact absurd h (mixed v1 c1 r1 _ q1 hc1)
  · rw [if_neg q1, if_neg q2] at h
    exact plain_delimited v1 v2 c1 c2 r1 r2 (fun b hb => (bytes v1 q1 b hb).1)
      (fun b hb => (bytes v2 q2 b hb).1) (by omega) (by omega) h

/-- C19 as stated fails: the two-byte strings `\x80"` and `\x81"` differ, and followed
by a space both give the same bytes, because the escaping loop writes an invalid byte
as the replacement character. -/
theorem encodeValue_delimited_counterexample :
    ([0x80, 0x22] : GoString) ≠ [0x81, 0x22] ∧
    (writeValueString ⟨[], none⟩ [0x80, 0x22]).1.out ++ [0x20] =
      [0x22, 0xEF, 0xBF, 0xBD, 0x5C, 0x22, 0x22, 0x20] ∧
    (writeValueString ⟨[], none⟩ [0x81, 0x22]).1.out ++ [0x20] =
      [0x22, 0xEF, 0xBF, 0xBD, 0x5C, 0x22, 0x22, 0x20] := by
  decide

/-- C19, amended.  On values that are valid UTF-8 an encoded value is self-delimiting
inside a line: for valid values `v1`, `v2` and suffixes `s1`, `s2` that each begin with
a space or a line-terminator character, if the bytes emitted for `v1` followed by `s1`
are the bytes emitted for `v2` followed by `s2`, then `v1 = v2` and `s1 = s2`. -/
theorem encodeValue_self_delimiting (v1 v2 s1 s2 : GoString)
    (hv1 : ValidString v1 = true) (hv2 : ValidString v2 = true)
    (hs1 : ∃ c rest, s1 = c :: rest ∧ (c = 0x20 ∨ c = 0x0A ∨ c = 0x0D))
    (hs2 : ∃ c rest, s2 = c :: rest ∧ (c = 0x20 ∨ c = 0x0A ∨ c = 0x0D))
    (h : (writeValueString ⟨[], none⟩ v1).1.out ++ s1 =
      (writeValueString ⟨[], none⟩ v2).1.out ++ s2) : v1 = v2 ∧ s1 = s2 :=
  encodeValue_delimited_of_valid v1 v2 s1 s2 hv1 hv2 hs1 hs2 h

/-- C19, amended, at the line rest `"a b" code=E1`, split after the closing quote. -/
theorem encodeValue_self_delimiting_witness :
    (writeValueString ⟨[], none⟩ (str "a b")).1.out ++ str " code=E1"
      = str "\"a b\" code=E1" ∧
    (str "a b" = [0x61, 0x20, 0x62] ∧ str " code=E1" = 0x20 :: str "code=E1") :=
  ⟨by decide,
    encodeValue_self_delimiting (str "a b") [0x61, 0x20, 0x62] (str " code=E1")
      (0x20 :: str "code=E1") (by decide) (by decide) ⟨0x20, str "code=E1", by decide, Or.inl rfl⟩
      ⟨0x20, str "code=E1", rfl, Or.inl rfl⟩ (by decide)⟩

end GoLog
